import Mathlib

/-!
Verification development for the item-set / lookahead construction engine
of a parser-table generator (file src/build_tables/item_set_builder.rs).

The data model (Symbol, LookaheadSet, Production, ParseItem, ParseItemSet,
FollowSetInfo, ClosureAddition) is embedded from the source and, where the
defining Rust module is not part of the provided sources, modelled from the
specification document.  All loops of the source are embedded as fuel-based
structural recursions so that every definition evaluates by kernel reduction.
-/

namespace ItemSetBuilder

/-- Modelled from the spec: kind of a grammar symbol — terminal token,
non-terminal variable, or externally scanned token. -/
inductive SymbolKind where
  | terminal
  | nonTerminal
  | external
deriving DecidableEq, Repr

/-- Modelled from the spec: a grammar symbol is a kind plus a dense index. -/
structure Symbol where
  kind : SymbolKind
  index : Nat
deriving DecidableEq, Repr

def Symbol.terminal (i : Nat) : Symbol := ⟨SymbolKind.terminal, i⟩

def Symbol.nonTerminal (i : Nat) : Symbol := ⟨SymbolKind.nonTerminal, i⟩

def Symbol.external (i : Nat) : Symbol := ⟨SymbolKind.external, i⟩

/-- Mirror of Symbol::is_terminal. -/
def Symbol.isTerminal (s : Symbol) : Bool :=
  match s.kind with
  | SymbolKind.terminal => true
  | _ => false

/-- Mirror of Symbol::is_external. -/
def Symbol.isExternal (s : Symbol) : Bool :=
  match s.kind with
  | SymbolKind.external => true
  | _ => false

/-- Mirror of Symbol::is_non_terminal. -/
def Symbol.isNonTerminal (s : Symbol) : Bool :=
  match s.kind with
  | SymbolKind.nonTerminal => true
  | _ => false

/-- Modelled from the spec: one step of a production, carrying a symbol. -/
structure ProductionStep where
  symbol : Symbol
deriving DecidableEq, Repr

/-- Modelled from the spec: a production is an ordered sequence of steps. -/
structure Production where
  steps : List ProductionStep
deriving DecidableEq, Repr

/-- Modelled from the spec: a grammar variable is an ordered list of
productions of one non-terminal. -/
structure SyntaxVariable where
  productions : List Production
deriving DecidableEq, Repr

/-- Modelled from the spec: the syntax grammar — ordered non-terminal
variables, the list length of external tokens, and the set of non-terminals
marked to inline. -/
structure SyntaxGrammar where
  vars : List SyntaxVariable
  externalTokenCount : Nat
  variablesToInline : List Symbol
deriving DecidableEq, Repr

/-- Modelled from the spec: of the lexical grammar only the number of
terminal variables matters to this component. -/
structure LexicalGrammar where
  variableCount : Nat
deriving DecidableEq, Repr

/-- A LookaheadSet is a finite set of symbols (terminals and externals). -/
abbrev LookaheadSet := Finset Symbol

/-- Modelled from the spec: a parse item identifies a production (either a
grammar production, by variable and production index, or an inlined
production, by its index in the inline collaborator) and a dot position. -/
inductive ParseItem where
  | normal (variableIndex : Nat) (productionIndex : Nat) (stepIndex : Nat)
  | inlined (inlinedProductionIndex : Nat) (stepIndex : Nat)
deriving DecidableEq, Repr

/-- Modelled from the spec: the external inline collaborator.  It owns a pool
of inlined productions and answers, for an item, whether it must be expanded
and into which ordered items. -/
structure Inlines where
  prods : List Production
  items : ParseItem → Option (List ParseItem)

/-- Mirror of FollowSetInfo: either concrete lookaheads, or a propagate
marker, stored together (a concrete set plus a boolean flag). -/
structure FollowSetInfo where
  lookaheads : LookaheadSet
  propagatesLookaheads : Bool
deriving DecidableEq

/-- Mirror of TransitiveClosureAddition. -/
structure TransitiveClosureAddition where
  item : ParseItem
  info : FollowSetInfo
deriving DecidableEq

/-- Mirror of find_or_push: append the value unless already present. -/
def findOrPush {α : Type} [DecidableEq α] (vector : List α) (value : α) : List α :=
  if value ∈ vector then vector else vector ++ [value]

/-- Variable of the grammar at an index; a variable with no productions is
the out-of-range default (a well-formed grammar never reaches it). -/
def SyntaxGrammar.variableAt (g : SyntaxGrammar) (v : Nat) : SyntaxVariable :=
  g.vars.getD v ⟨[]⟩

/-- Mirror of ParseItem::step: the production step at the dot, if any. -/
def ParseItem.step (g : SyntaxGrammar) (inl : Inlines) : ParseItem → Option ProductionStep
  | ParseItem.normal v p s => ((g.vars.get? v).bind (fun vr => vr.productions.get? p)).bind (fun pr => pr.steps.get? s)
  | ParseItem.inlined p s => (inl.prods.get? p).bind (fun pr => pr.steps.get? s)

/-- Mirror of ParseItem::successor: advance the dot by one. -/
def ParseItem.successor : ParseItem → ParseItem
  | ParseItem.normal v p s => ParseItem.normal v p (s + 1)
  | ParseItem.inlined p s => ParseItem.inlined p (s + 1)

/-! ### FIRST and LAST set computation

The two near-identical stack loops of ParseItemSetBuilder::new are embedded
once, parameterized by a step selector: the FIRST loop pushes the symbol of
the first step of each production, the LAST loop that of the last step. -/

/-- Selector for the FIRST loop: the steps in production order. -/
def selFirst (p : Production) : List ProductionStep := p.steps

/-- Selector for the LAST loop: the steps in reverse order, so that the head
of the selected list is the last step of the production. -/
def selLast (p : Production) : List ProductionStep := p.steps.reverse

/-- The symbols pushed for a popped unvisited non-terminal: for every
production that has a selected head step, its symbol, in production order. -/
def succs (g : SyntaxGrammar) (sel : Production → List ProductionStep) (v : Nat) : List Symbol :=
  (g.variableAt v).productions.filterMap (fun p => ((sel p).head?).map (fun st => st.symbol))

/-- Fuel-based embedding of the explicit-stack loop of the Symbol-Sets
builder.  Pops a symbol: a terminal or external token is inserted into the
accumulator; an unvisited non-terminal is marked visited and its production
head symbols are pushed (the reverse-append mirrors pushing to the top of a
stack in production order); a visited non-terminal is skipped.  Returns the
final visited set and accumulator, or none if the fuel runs out. -/
def reachLoop (g : SyntaxGrammar) (sel : Production → List ProductionStep) :
    Nat → Finset Nat → List Symbol → Finset Symbol → Option (Finset Nat × Finset Symbol)
  | 0, _, _, _ => none
  | _ + 1, visited, [], acc => some (visited, acc)
  | fuel + 1, visited, s :: rest, acc =>
    if s.isTerminal || s.isExternal then
      reachLoop g sel fuel visited rest (insert s acc)
    else if s.index ∈ visited then
      reachLoop g sel fuel visited rest acc
    else
      reachLoop g sel fuel (insert s.index visited) ((succs g sel s.index).reverse ++ rest) acc

/-- Fuel that always suffices for reachLoop started on one symbol: two more
than the total number of push operations that can ever happen. -/
def reachFuel (g : SyntaxGrammar) (sel : Production → List ProductionStep) : Nat :=
  2 + ∑ v in Finset.range g.vars.length, (1 + (succs g sel v).length)

/-- The computed FIRST (or LAST) set of a non-terminal symbol: run the stack
loop from that symbol with generous fuel. -/
def computedSet (g : SyntaxGrammar) (sel : Production → List ProductionStep) (s : Symbol) : Finset Symbol :=
  ((reachLoop g sel (reachFuel g sel) ∅ [s] ∅).map (fun r => r.2)).getD ∅

/-- The first_sets / last_sets maps are hash maps from symbols to lookahead
sets; embedded as a function to Option, none modelling an absent key. -/
def FSets := Symbol → Option LookaheadSet

/-- Hash-map insert for the symbol-set maps. -/
def fsInsert (m : FSets) (k : Symbol) (v : LookaheadSet) : FSets :=
  fun x => if x = k then some v else m x

/-- The empty symbol-set map. -/
def fsEmpty : FSets := fun _ => none

/-- Build the first_sets map exactly as ParseItemSetBuilder::new does:
singleton sets for every terminal, then for every external token, then the
stack-loop result for every non-terminal. -/
def buildSets (g : SyntaxGrammar) (lex : LexicalGrammar)
    (sel : Production → List ProductionStep) : FSets :=
  let m1 := (List.range lex.variableCount).foldl
    (fun m i => fsInsert m (Symbol.terminal i) {Symbol.terminal i}) fsEmpty
  let m2 := (List.range g.externalTokenCount).foldl
    (fun m i => fsInsert m (Symbol.external i) {Symbol.external i}) m1
  (List.range g.vars.length).foldl
    (fun m i => fsInsert m (Symbol.nonTerminal i) (computedSet g sel (Symbol.nonTerminal i))) m2

def buildFirstSets (g : SyntaxGrammar) (lex : LexicalGrammar) : FSets :=
  buildSets g lex selFirst

def buildLastSets (g : SyntaxGrammar) (lex : LexicalGrammar) : FSets :=
  buildSets g lex selLast

/-! ### Closure-Addition Table construction

The worklist fixed point of ParseItemSetBuilder::new:
follow_set_info_by_non_terminal is an association list keyed by variable
index (insertion ordered, mirroring the or_insert_with behaviour of the
hash map entry API), and entries_to_process is the explicit stack. -/

/-- Association-list lookup by variable index. -/
def alLookup (m : List (Nat × FollowSetInfo)) (k : Nat) : Option FollowSetInfo :=
  (m.find? (fun e => decide (e.1 = k))).map (fun e => e.2)

/-- Association-list overwrite: replace the value at an existing key in
place, or append a new binding at the end. -/
def alInsert (m : List (Nat × FollowSetInfo)) (k : Nat) (v : FollowSetInfo) :
    List (Nat × FollowSetInfo) :=
  match m with
  | [] => [(k, v)]
  | e :: t => if e.1 = k then (k, v) :: t else e :: alInsert t k v

/-- State of the worklist fixed point: the accumulated follow-set-info map
and the stack of entries still to process. -/
structure FollowState where
  infoMap : List (Nat × FollowSetInfo)
  work : List (Nat × LookaheadSet × Bool)

/-- The entries pushed when the merge for a variable changed something: for
every production whose first symbol is a non-terminal, either (that
non-terminal, same lookaheads, same propagate flag) when the production has
exactly one step, or (that non-terminal, FIRST of the second step, false)
otherwise. -/
def pushedEntries (g : SyntaxGrammar) (fs : FSets) (v : Nat)
    (lookaheads : LookaheadSet) (propagates : Bool) : List (Nat × LookaheadSet × Bool) :=
  (g.variableAt v).productions.filterMap (fun p =>
    match p.steps.head? with
    | none => none
    | some st =>
      if st.symbol.isNonTerminal then
        if p.steps.length = 1 then
          some (st.symbol.index, lookaheads, propagates)
        else
          some (st.symbol.index, ((p.steps.get? 1).bind (fun st2 => fs st2.symbol)).getD ∅, false)
      else none)

/-- One iteration of the worklist loop: pop an entry, merge it into the
accumulator with change detection, and push successor entries on change. -/
def followStep (g : SyntaxGrammar) (fs : FSets) (st : FollowState) : FollowState :=
  match st.work with
  | [] => st
  | (v, lookaheads, propagates) :: rest =>
    let existing := (alLookup st.infoMap v).getD ⟨∅, false⟩
    let didAdd := if propagates then !existing.propagatesLookaheads
      else decide (¬ lookaheads ⊆ existing.lookaheads)
    let newInfo : FollowSetInfo := if propagates
      then ⟨existing.lookaheads, true⟩
      else ⟨existing.lookaheads ∪ lookaheads, existing.propagatesLookaheads⟩
    let map2 := alInsert st.infoMap v newInfo
    let pushes := if didAdd then pushedEntries g fs v lookaheads propagates else []
    ⟨map2, pushes.reverse ++ rest⟩

/-- Fuel-based embedding of the worklist loop. -/
def followLoop (g : SyntaxGrammar) (fs : FSets) : Nat → FollowState → FollowState
  | 0, st => st
  | fuel + 1, st =>
    match st.work with
    | [] => st
    | _ => followLoop g fs fuel (followStep g fs st)

/-- The token alphabet of a grammar: all registered terminals and external
tokens. -/
def alphabet (g : SyntaxGrammar) (lex : LexicalGrammar) : Finset Symbol :=
  ((List.range lex.variableCount).map Symbol.terminal).toFinset ∪
    ((List.range g.externalTokenCount).map Symbol.external).toFinset

/-- Total number of productions of the grammar. -/
def totalProds (g : SyntaxGrammar) : Nat :=
  (g.vars.map (fun v => v.productions.length)).sum

/-- Fuel that always suffices for the worklist loop of one non-terminal. -/
def followFuel (g : SyntaxGrammar) (lex : LexicalGrammar) : Nat :=
  g.vars.length * ((alphabet g lex).card + 2) * (totalProds g + 1) + 2

/-- The follow-set-info map computed for non-terminal i: run the worklist
loop seeded with (i, empty lookaheads, propagate = true). -/
def followMapFor (g : SyntaxGrammar) (lex : LexicalGrammar) (fs : FSets) (i : Nat) :
    List (Nat × FollowSetInfo) :=
  (followLoop g fs (followFuel g lex) ⟨[], [(i, ∅, true)]⟩).infoMap

/-- Second stage of the table construction: convert the follow-set-info map
into the deduplicated addition list for non-terminal i, skipping variables
marked to inline and replacing items the inline collaborator expands. -/
def additionsFor (g : SyntaxGrammar) (inl : Inlines)
    (fm : List (Nat × FollowSetInfo)) : List TransitiveClosureAddition :=
  fm.foldl (fun acc entry =>
    let v := entry.1
    if Symbol.nonTerminal v ∈ g.variablesToInline then acc
    else
      (List.range (g.variableAt v).productions.length).foldl (fun acc2 p =>
        let item := ParseItem.normal v p 0
        match inl.items item with
        | some l => l.foldl (fun acc3 it => findOrPush acc3 ⟨it, entry.2⟩) acc2
        | none => findOrPush acc2 ⟨item, entry.2⟩) acc) []

/-- Mirror of ParseItemSetBuilder (the fields computed by new). -/
structure Builder where
  first_sets : FSets
  last_sets : FSets
  additions : List (List TransitiveClosureAddition)
  inlines : Inlines

/-- Mirror of ParseItemSetBuilder::new. -/
def mkBuilder (g : SyntaxGrammar) (lex : LexicalGrammar) (inl : Inlines) : Builder :=
  let fs := buildFirstSets g lex
  { first_sets := fs
    last_sets := buildLastSets g lex
    additions := (List.range g.vars.length).map
      (fun i => additionsFor g inl (followMapFor g lex fs i))
    inlines := inl }

/-- Mirror of ParseItemSetBuilder::first_set; none models the panic of the
hash-map index on an unregistered symbol. -/
def Builder.firstSet (b : Builder) (s : Symbol) : Option LookaheadSet :=
  b.first_sets s

/-- The addition list stored for a non-terminal index. -/
def Builder.additionsAt (b : Builder) (i : Nat) : List TransitiveClosureAddition :=
  b.additions.getD i []

/-! ### Closure Engine -/

/-- A ParseItemSet: insertion-ordered entries mapping parse items to
lookahead sets, keys unique. -/
abbrev PIS := List (ParseItem × LookaheadSet)

/-- Lookup of the entry stored under a parse item. -/
def pisLookup (s : PIS) (k : ParseItem) : Option LookaheadSet :=
  (s.find? (fun e => decide (e.1 = k))).map (fun e => e.2)

/-- Mirror of entries.entry(k).or_insert_with(empty) followed by in-place
mutation: apply f to the existing value, or bind k to f of the empty set. -/
def pisUpdate (s : PIS) (k : ParseItem) (f : LookaheadSet → LookaheadSet) : PIS :=
  match s with
  | [] => [(k, f ∅)]
  | e :: t => if e.1 = k then (k, f e.2) :: t else e :: pisUpdate t k f

/-- Mirror of entries.insert(k, v): overwrite in place or append. -/
def pisInsert (s : PIS) (k : ParseItem) (v : LookaheadSet) : PIS :=
  match s with
  | [] => [(k, v)]
  | e :: t => if e.1 = k then (k, v) :: t else e :: pisInsert t k v

/-- The tokens that can follow the non-terminal at the dot of an item: the
FIRST set of the next step when one exists, else the incoming lookaheads. -/
def followingTokensOf (b : Builder) (g : SyntaxGrammar) (item : ParseItem)
    (lookaheads : LookaheadSet) : LookaheadSet :=
  match (ParseItem.successor item).step g b.inlines with
  | some nextStep => (b.first_sets nextStep.symbol).getD ∅
  | none => lookaheads

/-- Mirror of ParseItemSetBuilder::add_item.  If the symbol at the dot is a
non-terminal, the following tokens are FIRST of the next step if a next step
exists, else the incoming lookaheads; every precomputed addition for that
non-terminal is merged into the set (concrete lookaheads always, the
following tokens when the addition propagates).  Finally the item itself is
inserted with its own lookaheads. -/
def addItem (b : Builder) (g : SyntaxGrammar) (set : PIS) (item : ParseItem)
    (lookaheads : LookaheadSet) : PIS :=
  let set2 :=
    match item.step g b.inlines with
    | some st =>
      if st.symbol.isNonTerminal then
        let followingTokens := followingTokensOf b g item lookaheads
        (b.additionsAt st.symbol.index).foldl (fun acc a =>
          pisUpdate acc a.item (fun v =>
            (v ∪ a.info.lookaheads) ∪
              (if a.info.propagatesLookaheads then followingTokens else ∅))) set
      else set
    | none => set
  pisInsert set2 item lookaheads

/-- Processing of one kernel entry by transitive_closure: expand the item
through the inline collaborator when required, else add it directly. -/
def closureStep (b : Builder) (g : SyntaxGrammar) (res : PIS)
    (e : ParseItem × LookaheadSet) : PIS :=
  match b.inlines.items e.1 with
  | some l => l.foldl (fun res2 it => addItem b g res2 it e.2) res
  | none => addItem b g res e.1 e.2

/-- Mirror of ParseItemSetBuilder::transitive_closure: process every kernel
entry in order, expanding it through the inline collaborator first. -/
def transitiveClosure (b : Builder) (g : SyntaxGrammar) (kernel : PIS) : PIS :=
  kernel.foldl (closureStep b g) []

/-! ### Well-formedness -/

/-- The registration bound for a symbol kind: terminals range over the
lexical variables, externals over the external tokens, non-terminals over
the syntax variables. -/
def symBound (g : SyntaxGrammar) (lex : LexicalGrammar) (s : Symbol) : Nat :=
  match s.kind with
  | SymbolKind.terminal => lex.variableCount
  | SymbolKind.external => g.externalTokenCount
  | SymbolKind.nonTerminal => g.vars.length

/-- A symbol is valid (registered) when its index is below the bound of its
kind. -/
def ValidSymbol (g : SyntaxGrammar) (lex : LexicalGrammar) (s : Symbol) : Prop :=
  s.index < symBound g lex s

instance (g : SyntaxGrammar) (lex : LexicalGrammar) (s : Symbol) :
    Decidable (ValidSymbol g lex s) := by
  unfold ValidSymbol; infer_instance

/-- A grammar is well-formed when every symbol appearing in a production
step is registered. -/
def WFGrammar (g : SyntaxGrammar) (lex : LexicalGrammar) : Prop :=
  ∀ v ∈ g.vars, ∀ p ∈ v.productions, ∀ st ∈ p.steps, ValidSymbol g lex st.symbol

instance (g : SyntaxGrammar) (lex : LexicalGrammar) : Decidable (WFGrammar g lex) := by
  unfold WFGrammar; infer_instance

/-! ### Lemmas about the symbol-set maps -/

theorem fsInsert_self (m : FSets) (k : Symbol) (v : LookaheadSet) :
    fsInsert m k v k = some v := by
  simp [fsInsert]

theorem fsInsert_other (m : FSets) (k x : Symbol) (v : LookaheadSet) (h : x ≠ k) :
    fsInsert m k v x = m x := by
  simp [fsInsert, h]

theorem fsFold_frame (kf : Nat → Symbol) (vf : Nat → LookaheadSet) :
    ∀ (l : List Nat) (m : FSets) (k : Symbol), (∀ j ∈ l, kf j ≠ k) →
      (l.foldl (fun m2 i => fsInsert m2 (kf i) (vf i)) m) k = m k := by
  intro l
  induction l with
  | nil => intro m k _; rfl
  | cons a t ih =>
    intro m k h
    have ha : kf a ≠ k := h a (List.mem_cons_self a t)
    have ht : ∀ j ∈ t, kf j ≠ k := fun j hj => h j (List.mem_cons_of_mem a hj)
    simpa [List.foldl_cons, fsInsert_other m (kf a) k (vf a) (fun he => ha he.symm)] using
      (ih (fsInsert m (kf a) (vf a)) k ht).trans
        (fsInsert_other m (kf a) k (vf a) (fun he => ha he.symm))

theorem fsFold_mem (kf : Nat → Symbol) (vf : Nat → LookaheadSet)
    (inj : ∀ a b, kf a = kf b → a = b) :
    ∀ (l : List Nat) (m : FSets), l.Nodup → ∀ i ∈ l,
      (l.foldl (fun m2 j => fsInsert m2 (kf j) (vf j)) m) (kf i) = some (vf i) := by
  intro l
  induction l with
  | nil => intro m _ i hi; exact absurd hi (List.not_mem_nil i)
  | cons a t ih =>
    intro m hnd i hi
    rcases List.mem_cons.mp hi with rfl | hit
    · have ha : i ∉ t := (List.nodup_cons.mp hnd).1
      have ht : ∀ j ∈ t, kf j ≠ kf i := by
        intro j hj he
        exact ha (inj j i he ▸ hj)
      calc (t.foldl (fun m2 j => fsInsert m2 (kf j) (vf j)) (fsInsert m (kf i) (vf i))) (kf i)
          = (fsInsert m (kf i) (vf i)) (kf i) := fsFold_frame kf vf t _ (kf i) ht
        _ = some (vf i) := fsInsert_self m (kf i) (vf i)
    · exact ih (fsInsert m (kf a) (vf a)) (List.nodup_cons.mp hnd).2 i hit

theorem terminal_ne_external (i j : Nat) : Symbol.terminal i ≠ Symbol.external j := by
  intro h
  exact SymbolKind.noConfusion (congrArg Symbol.kind h)

theorem terminal_ne_nonTerminal (i j : Nat) : Symbol.terminal i ≠ Symbol.nonTerminal j := by
  intro h
  exact SymbolKind.noConfusion (congrArg Symbol.kind h)

theorem external_ne_nonTerminal (i j : Nat) : Symbol.external i ≠ Symbol.nonTerminal j := by
  intro h
  exact SymbolKind.noConfusion (congrArg Symbol.kind h)

/-- Value of the symbol-set maps at a registered terminal. -/
theorem buildSets_terminal (g : SyntaxGrammar) (lex : LexicalGrammar)
    (sel : Production → List ProductionStep) (i : Nat) (hi : i < lex.variableCount) :
    buildSets g lex sel (Symbol.terminal i) = some {Symbol.terminal i} := by
  unfold buildSets
  rw [fsFold_frame Symbol.nonTerminal _ _ _ _
    (fun j _ => fun h => terminal_ne_nonTerminal i j h.symm)]
  rw [fsFold_frame Symbol.external _ _ _ _
    (fun j _ => fun h => terminal_ne_external i j h.symm)]
  exact fsFold_mem Symbol.terminal (fun j => {Symbol.terminal j})
    (fun a b h => congrArg Symbol.index h) (List.range lex.variableCount) fsEmpty
    (List.nodup_range lex.variableCount) i (List.mem_range.mpr hi)

/-- Value of the symbol-set maps at a registered external token. -/
theorem buildSets_external (g : SyntaxGrammar) (lex : LexicalGrammar)
    (sel : Production → List ProductionStep) (i : Nat) (hi : i < g.externalTokenCount) :
    buildSets g lex sel (Symbol.external i) = some {Symbol.external i} := by
  unfold buildSets
  rw [fsFold_frame Symbol.nonTerminal _ _ _ _
    (fun j _ => fun h => external_ne_nonTerminal i j h.symm)]
  exact fsFold_mem Symbol.external (fun j => {Symbol.external j})
    (fun a b h => congrArg Symbol.index h) (List.range g.externalTokenCount) _
    (List.nodup_range g.externalTokenCount) i (List.mem_range.mpr hi)

/-- Value of the symbol-set maps at a registered non-terminal. -/
theorem buildSets_nonTerminal (g : SyntaxGrammar) (lex : LexicalGrammar)
    (sel : Production → List ProductionStep) (i : Nat) (hi : i < g.vars.length) :
    buildSets g lex sel (Symbol.nonTerminal i) = some (computedSet g sel (Symbol.nonTerminal i)) := by
  unfold buildSets
  exact fsFold_mem Symbol.nonTerminal (fun j => computedSet g sel (Symbol.nonTerminal j))
    (fun a b h => congrArg Symbol.index h) (List.range g.vars.length) _
    (List.nodup_range g.vars.length) i (List.mem_range.mpr hi)

/-- An unregistered symbol is absent from the symbol-set maps. -/
theorem buildSets_invalid (g : SyntaxGrammar) (lex : LexicalGrammar)
    (sel : Production → List ProductionStep) (s : Symbol)
    (h : ¬ ValidSymbol g lex s) : buildSets g lex sel s = none := by
  unfold buildSets
  rw [fsFold_frame, fsFold_frame, fsFold_frame]
  · rfl
  · intro j hj he
    rcases s with ⟨k, ix⟩
    cases congrArg Symbol.kind he
    exact h (by simpa [ValidSymbol, symBound, Symbol.terminal] using
      (by cases he; exact List.mem_range.mp hj : ix < lex.variableCount))
  · intro j hj he
    rcases s with ⟨k, ix⟩
    cases congrArg Symbol.kind he
    exact h (by simpa [ValidSymbol, symBound, Symbol.external] using
      (by cases he; exact List.mem_range.mp hj : ix < g.externalTokenCount))
  · intro j hj he
    rcases s with ⟨k, ix⟩
    cases congrArg Symbol.kind he
    exact h (by simpa [ValidSymbol, symBound, Symbol.nonTerminal] using
      (by cases he; exact List.mem_range.mp hj : ix < g.vars.length))

theorem mkBuilder_first_sets (g : SyntaxGrammar) (lex : LexicalGrammar) (inl : Inlines) :
    (mkBuilder g lex inl).first_sets = buildFirstSets g lex := rfl

theorem mkBuilder_last_sets (g : SyntaxGrammar) (lex : LexicalGrammar) (inl : Inlines) :
    (mkBuilder g lex inl).last_sets = buildLastSets g lex := rfl

/-! ### Concrete instances used by witnesses and counterexamples -/

/-- The trivial inline collaborator: nothing is inlined. -/
def noInl : Inlines := ⟨[], fun _ => none⟩

/-- Grammar gOne: one variable V0 with the production (t0), one terminal,
one external token. -/
def gOne : SyntaxGrammar := ⟨[⟨[⟨[⟨Symbol.terminal 0⟩]⟩]⟩], 1, []⟩

def lexOne : LexicalGrammar := ⟨1⟩

/-- Grammar gTwo: S -> A and A -> (t0) A | (t1), with t2 playing the role of
the end-of-input token. -/
def gTwo : SyntaxGrammar :=
  ⟨[⟨[⟨[⟨Symbol.nonTerminal 1⟩]⟩]⟩,
    ⟨[⟨[⟨Symbol.terminal 0⟩, ⟨Symbol.nonTerminal 1⟩]⟩, ⟨[⟨Symbol.terminal 1⟩]⟩]⟩], 0, []⟩

def lexTwo : LexicalGrammar := ⟨3⟩

/-- Grammar gOv (overwrite counterexample): S -> A and A -> (t0); terminals
t1 and t2 serve as distinct incoming lookaheads. -/
def gOv : SyntaxGrammar :=
  ⟨[⟨[⟨[⟨Symbol.nonTerminal 1⟩]⟩]⟩, ⟨[⟨[⟨Symbol.terminal 0⟩]⟩]⟩], 0, []⟩

def lexOv : LexicalGrammar := ⟨3⟩

def bOv : Builder := mkBuilder gOv lexOv noInl

/-- The kernel item S -> . A of gOv. -/
def itemOvS : ParseItem := ParseItem.normal 0 0 0

/-- The item A -> . (t0) of gOv: both a kernel item and a closure-addition
target. -/
def itemOvA : ParseItem := ParseItem.normal 1 0 0

/-- Kernel of gOv listing the S item first. -/
def kernelOvSA : PIS := [(itemOvS, {Symbol.terminal 1}), (itemOvA, {Symbol.terminal 2})]

/-- The same kernel with the two entries swapped. -/
def kernelOvAS : PIS := [(itemOvA, {Symbol.terminal 2}), (itemOvS, {Symbol.terminal 1})]

/-- Grammar gNul (nullable counterexample): A -> B C, B -> (empty
production), C -> (t0). -/
def gNul : SyntaxGrammar :=
  ⟨[⟨[⟨[⟨Symbol.nonTerminal 1⟩, ⟨Symbol.nonTerminal 2⟩]⟩]⟩,
    ⟨[⟨[]⟩]⟩,
    ⟨[⟨[⟨Symbol.terminal 0⟩]⟩]⟩], 0, []⟩

def lexNul : LexicalGrammar := ⟨1⟩

/-- Grammar gRec (left recursion): A -> A (t0) | (t1). -/
def gRec : SyntaxGrammar :=
  ⟨[⟨[⟨[⟨Symbol.nonTerminal 0⟩, ⟨Symbol.terminal 0⟩]⟩, ⟨[⟨Symbol.terminal 1⟩]⟩]⟩], 0, []⟩

def lexRec : LexicalGrammar := ⟨2⟩

def bRec : Builder := mkBuilder gRec lexRec noInl

/-- Kernel containing the single item A -> . A (t0) with lookahead t1. -/
def kernelRec : PIS := [(ParseItem.normal 0 0 0, {Symbol.terminal 1})]

/-! ### Claim C8 -/

/-- Claim C8: for every terminal symbol and every external-token symbol s of
the grammar, the computed FIRST(s) and LAST(s) are both exactly the
singleton set containing s itself. -/
theorem c8_terminal_external_singleton (g : SyntaxGrammar) (lex : LexicalGrammar) (inl : Inlines) :
    (∀ i, i < lex.variableCount →
      (mkBuilder g lex inl).first_sets (Symbol.terminal i) = some {Symbol.terminal i} ∧
      (mkBuilder g lex inl).last_sets (Symbol.terminal i) = some {Symbol.terminal i}) ∧
    (∀ i, i < g.externalTokenCount →
      (mkBuilder g lex inl).first_sets (Symbol.external i) = some {Symbol.external i} ∧
      (mkBuilder g lex inl).last_sets (Symbol.external i) = some {Symbol.external i}) := by
  refine ⟨fun i hi => ⟨?_, ?_⟩, fun i hi => ⟨?_, ?_⟩⟩
  · exact buildSets_terminal g lex selFirst i hi
  · exact buildSets_terminal g lex selLast i hi
  · exact buildSets_external g lex selFirst i hi
  · exact buildSets_external g lex selLast i hi

/-- Witness for C8 at the concrete grammar gOne. -/
theorem c8_witness :
    (mkBuilder gOne lexOne noInl).first_sets (Symbol.terminal 0) = some {Symbol.terminal 0} ∧
    (mkBuilder gOne lexOne noInl).last_sets (Symbol.terminal 0) = some {Symbol.terminal 0} ∧
    (mkBuilder gOne lexOne noInl).first_sets (Symbol.external 0) = some {Symbol.external 0} ∧
    (mkBuilder gOne lexOne noInl).last_sets (Symbol.external 0) = some {Symbol.external 0} := by
  refine ⟨((c8_terminal_external_singleton gOne lexOne noInl).1 0 (by decide)).1,
    ((c8_terminal_external_singleton gOne lexOne noInl).1 0 (by decide)).2,
    ((c8_terminal_external_singleton gOne lexOne noInl).2 0 (by decide)).1,
    ((c8_terminal_external_singleton gOne lexOne noInl).2 0 (by decide)).2⟩

/-! ### Claim C9 -/

/-- Claim C9: first_set returns a precomputed set exactly for the registered
symbols — terminals with index below the number of lexical variables,
external tokens with index below the number of external tokens, and
non-terminals with index below the number of syntax variables.  The failing
(panic) branch of the map lookup, modelled by the none result, is reachable
only for an unregistered symbol. -/
theorem c9_first_set_total_on_registered (g : SyntaxGrammar) (lex : LexicalGrammar)
    (inl : Inlines) (s : Symbol) :
    ((mkBuilder g lex inl).firstSet s).isSome = true ↔ ValidSymbol g lex s := by
  constructor
  · intro h
    by_contra hv
    rw [Builder.firstSet, mkBuilder_first_sets, buildFirstSets,
      buildSets_invalid g lex selFirst s hv] at h
    exact Bool.noConfusion h
  · intro hv
    rcases s with ⟨k, ix⟩
    cases k with
    | terminal =>
      rw [Builder.firstSet, mkBuilder_first_sets, buildFirstSets,
        show Symbol.mk SymbolKind.terminal ix = Symbol.terminal ix from rfl,
        buildSets_terminal g lex selFirst ix hv]
      rfl
    | nonTerminal =>
      rw [Builder.firstSet, mkBuilder_first_sets, buildFirstSets,
        show Symbol.mk SymbolKind.nonTerminal ix = Symbol.nonTerminal ix from rfl,
        buildSets_nonTerminal g lex selFirst ix hv]
      rfl
    | external =>
      rw [Builder.firstSet, mkBuilder_first_sets, buildFirstSets,
        show Symbol.mk SymbolKind.external ix = Symbol.external ix from rfl,
        buildSets_external g lex selFirst ix hv]
      rfl

/-! ### Membership lemmas for the addition lists and item sets -/

theorem mem_findOrPush {α : Type} [DecidableEq α] {l : List α} {x a : α}
    (h : a ∈ findOrPush l x) : a ∈ l ∨ a = x := by
  unfold findOrPush at h
  by_cases hx : x ∈ l
  · simp [hx] at h
    exact Or.inl h
  · simp [hx] at h
    exact h

/-- Generic preservation of a predicate along a left fold whose step keeps
the predicate on all elements. -/
theorem foldl_pres {α β : Type} (P : α → Prop) (f : List α → β → List α)
    (hf : ∀ acc x, (∀ a ∈ acc, P a) → ∀ a ∈ f acc x, P a) :
    ∀ (l : List β) (acc : List α), (∀ a ∈ acc, P a) → ∀ a ∈ l.foldl f acc, P a := by
  intro l
  induction l with
  | nil => intro acc h; exact h
  | cons x t ih => intro acc h; exact ih (f acc x) (hf acc x h)

/-- Variant of foldl_pres that also hands the step the membership of the
folded element in the list. -/
theorem foldl_pres_mem {α β : Type} (P : α → Prop) (f : List α → β → List α) :
    ∀ (l : List β), (∀ acc x, x ∈ l → (∀ a ∈ acc, P a) → ∀ a ∈ f acc x, P a) →
      ∀ (acc : List α), (∀ a ∈ acc, P a) → ∀ a ∈ l.foldl f acc, P a := by
  intro l
  induction l with
  | nil => intro _ acc h; exact h
  | cons x t ih =>
    intro hf acc h
    exact ih (fun acc2 y hy => hf acc2 y (List.mem_cons_of_mem x hy)) (f acc x)
      (hf acc x (List.mem_cons_self x t) h)

/-- Every addition produced by additionsFor is either a bare start item of a
production of some non-terminal not marked to inline, or an item returned by
the inline collaborator for such a start item. -/
theorem additionsFor_shape (g : SyntaxGrammar) (inl : Inlines)
    (fm : List (Nat × FollowSetInfo)) :
    ∀ a ∈ additionsFor g inl fm,
      (∃ v p, Symbol.nonTerminal v ∉ g.variablesToInline ∧
        a.item = ParseItem.normal v p 0 ∧ inl.items (ParseItem.normal v p 0) = none) ∨
      (∃ v p l, Symbol.nonTerminal v ∉ g.variablesToInline ∧
        inl.items (ParseItem.normal v p 0) = some l ∧ a.item ∈ l) := by
  unfold additionsFor
  refine foldl_pres _ _ ?_ fm [] (by intro a h; exact absurd h (List.not_mem_nil a))
  intro acc entry hacc
  by_cases hv : Symbol.nonTerminal entry.1 ∈ g.variablesToInline
  · simpa [hv] using hacc
  · simp only [hv, if_false]
    refine foldl_pres _ _ ?_ _ acc hacc
    intro acc2 p hacc2
    cases hit : inl.items (ParseItem.normal entry.1 p 0) with
    | some l =>
      simp only [hit]
      refine foldl_pres_mem _ _ l ?_ acc2 hacc2
      intro acc3 it hitl hacc3 a ha
      rcases mem_findOrPush ha with h | h
      · exact hacc3 a h
      · subst h
        exact Or.inr ⟨entry.1, p, l, hv, hit, hitl⟩
    | none =>
      simp only [hit]
      intro a ha
      rcases mem_findOrPush ha with h | h
      · exact hacc2 a h
      · subst h
        exact Or.inl ⟨entry.1, p, hv, rfl, hit⟩

/-- The addition list stored by the builder for index i is additionsFor of
the follow map of i (or empty when i is out of range). -/
theorem additionsAt_eq (g : SyntaxGrammar) (lex : LexicalGrammar) (inl : Inlines) (i : Nat)
    (hi : i < g.vars.length) :
    (mkBuilder g lex inl).additionsAt i =
      additionsFor g inl (followMapFor g lex (buildFirstSets g lex) i) := by
  unfold Builder.additionsAt mkBuilder
  simp only []
  rw [List.getD_eq_getElem?_getD]
  rw [List.getElem?_map]
  simp [List.getElem?_range hi]

theorem additionsAt_out_of_range (g : SyntaxGrammar) (lex : LexicalGrammar) (inl : Inlines)
    (i : Nat) (hi : ¬ i < g.vars.length) :
    (mkBuilder g lex inl).additionsAt i = [] := by
  unfold Builder.additionsAt mkBuilder
  simp only []
  rw [List.getD_eq_getElem?_getD]
  rw [List.getElem?_map]
  have : (List.range g.vars.length)[i]? = none := by
    rw [List.getElem?_eq_none]
    simpa using Nat.le_of_not_lt hi
  simp [this]

/-! ### Claim C10 -/

/-- Claim C10: every addition stored in the closure-addition table pairs its
follow-set info with a start-of-production item (dot position zero) or with
an item returned by the inline expander for such a start item. -/
theorem c10_additions_are_start_items (g : SyntaxGrammar) (lex : LexicalGrammar)
    (inl : Inlines) (i : Nat) (a : TransitiveClosureAddition)
    (ha : a ∈ (mkBuilder g lex inl).additionsAt i) :
    (∃ v p, a.item = ParseItem.normal v p 0) ∨
    (∃ v p l, inl.items (ParseItem.normal v p 0) = some l ∧ a.item ∈ l) := by
  by_cases hi : i < g.vars.length
  · rw [additionsAt_eq g lex inl i hi] at ha
    rcases additionsFor_shape g inl _ a ha with ⟨v, p, _, he, _⟩ | ⟨v, p, l, _, hs, hm⟩
    · exact Or.inl ⟨v, p, he⟩
    · exact Or.inr ⟨v, p, l, hs, hm⟩
  · rw [additionsAt_out_of_range g lex inl i hi] at ha
    exact absurd ha (List.not_mem_nil a)

/-! ### Claim C6 -/

/-- An item belongs to a non-terminal marked to inline when it is an item of
one of the productions owned by such a non-terminal. -/
def BelongsToInline (g : SyntaxGrammar) : ParseItem → Prop
  | ParseItem.normal v _ _ => Symbol.nonTerminal v ∈ g.variablesToInline
  | ParseItem.inlined _ _ => False

instance (g : SyntaxGrammar) (it : ParseItem) : Decidable (BelongsToInline g it) := by
  cases it with
  | normal v p s => exact (inferInstance : Decidable (Symbol.nonTerminal v ∈ g.variablesToInline))
  | inlined p s => exact (inferInstance : Decidable False)

/-- Key-based predicate preservation for pisUpdate: the keys of the result
are the old keys plus the updated key. -/
theorem pisUpdate_forall_keys (Q : ParseItem → Prop) :
    ∀ (s : PIS) (k : ParseItem) (f : LookaheadSet → LookaheadSet),
      (∀ e ∈ s, Q e.1) → Q k → ∀ e ∈ pisUpdate s k f, Q e.1 := by
  intro s
  induction s with
  | nil =>
    intro k f _ hk e he
    rcases List.mem_singleton.mp he with rfl
    exact hk
  | cons a t ih =>
    intro k f hs hk e he
    unfold pisUpdate at he
    by_cases hak : a.1 = k
    · simp only [hak, if_true] at he
      rcases List.mem_cons.mp he with rfl | ht
      · exact hk
      · exact hs e (List.mem_cons_of_mem a ht)
    · simp only [hak, if_false] at he
      rcases List.mem_cons.mp he with rfl | ht
      · exact hs _ (List.mem_cons_self _ _)
      · exact ih k f (fun x hx => hs x (List.mem_cons_of_mem _ hx)) hk e ht

/-- Key-based predicate preservation for pisInsert. -/
theorem pisInsert_forall_keys (Q : ParseItem → Prop) :
    ∀ (s : PIS) (k : ParseItem) (v : LookaheadSet),
      (∀ e ∈ s, Q e.1) → Q k → ∀ e ∈ pisInsert s k v, Q e.1 := by
  intro s
  induction s with
  | nil =>
    intro k v _ hk e he
    rcases List.mem_singleton.mp he with rfl
    exact hk
  | cons a t ih =>
    intro k v hs hk e he
    unfold pisInsert at he
    by_cases hak : a.1 = k
    · simp only [hak, if_true] at he
      rcases List.mem_cons.mp he with rfl | ht
      · exact hk
      · exact hs e (List.mem_cons_of_mem a ht)
    · simp only [hak, if_false] at he
      rcases List.mem_cons.mp he with rfl | ht
      · exact hs _ (List.mem_cons_self _ _)
      · exact ih k v (fun x hx => hs x (List.mem_cons_of_mem _ hx)) hk e ht

/-- Key-based predicate preservation for addItem: the keys of the result are
the old keys, the addition targets of the dot non-terminal, and the item. -/
theorem addItem_forall_keys (Q : ParseItem → Prop) (b : Builder) (g : SyntaxGrammar)
    (s : PIS) (item : ParseItem) (la : LookaheadSet)
    (hadds : ∀ i, ∀ a ∈ b.additionsAt i, Q a.item)
    (hs : ∀ e ∈ s, Q e.1) (hk : Q item) :
    ∀ e ∈ addItem b g s item la, Q e.1 := by
  unfold addItem
  split
  · split
    · refine pisInsert_forall_keys Q _ item la ?_ hk
      rename_i st hst hnt
      refine foldl_pres_mem (fun e => Q e.1) _ (b.additionsAt st.symbol.index) ?_ s hs
      intro acc a ha hacc
      exact pisUpdate_forall_keys Q acc a.item _ hacc (hadds st.symbol.index a ha)
    · exact pisInsert_forall_keys Q s item la hs hk
  · exact pisInsert_forall_keys Q s item la hs hk

/-- Claim C6: no addition stored in the closure-addition table has an item
belonging to a non-terminal marked to inline, and consequently no key of any
transitive-closure result belongs to such a non-terminal, provided the
inline collaborator resolves inlining fully (its outputs never belong to a
to-inline non-terminal) and the kernel's unexpanded items do not belong to
one. -/
theorem c6_inline_never_a_target (g : SyntaxGrammar) (lex : LexicalGrammar) (inl : Inlines)
    (kernel : PIS)
    (hres : ∀ it l out, inl.items it = some l → out ∈ l → ¬ BelongsToInline g out)
    (hker : ∀ e ∈ kernel, inl.items e.1 = none → ¬ BelongsToInline g e.1) :
    (∀ i, ∀ a ∈ (mkBuilder g lex inl).additionsAt i, ¬ BelongsToInline g a.item) ∧
    (∀ e ∈ transitiveClosure (mkBuilder g lex inl) g kernel, ¬ BelongsToInline g e.1) := by
  have hadds : ∀ i, ∀ a ∈ (mkBuilder g lex inl).additionsAt i, ¬ BelongsToInline g a.item := by
    intro i a ha
    by_cases hi : i < g.vars.length
    · rw [additionsAt_eq g lex inl i hi] at ha
      rcases additionsFor_shape g inl _ a ha with ⟨v, p, hv, he, _⟩ | ⟨v, p, l, _, hs, hm⟩
      · rw [he]
        exact hv
      · exact hres _ l a.item hs hm
    · rw [additionsAt_out_of_range g lex inl i hi] at ha
      exact absurd ha (List.not_mem_nil a)
  refine ⟨hadds, ?_⟩
  unfold transitiveClosure
  refine foldl_pres_mem (fun e : ParseItem × LookaheadSet => ¬ BelongsToInline g e.1) _ kernel ?_ []
    (by intro a h; exact absurd h (List.not_mem_nil a))
  intro res e hel hres2
  unfold closureStep
  cases hit : (mkBuilder g lex inl).inlines.items e.1 with
  | some l =>
    simp only [hit]
    refine foldl_pres_mem (fun e2 : ParseItem × LookaheadSet => ¬ BelongsToInline g e2.1) _ l ?_ res hres2
    intro res2 it hitl hres3
    exact addItem_forall_keys (fun k => ¬ BelongsToInline g k) _ g res2 it e.2 hadds hres3
      (hres e.1 l it hit hitl)
  | none =>
    simp only [hit]
    exact addItem_forall_keys (fun k => ¬ BelongsToInline g k) _ g res e.1 e.2 hadds hres2
      (hker e hel hit)

/-- Grammar gInl: S -> W and W -> (t0), with W marked to inline. -/
def gInl : SyntaxGrammar :=
  ⟨[⟨[⟨[⟨Symbol.nonTerminal 1⟩]⟩]⟩, ⟨[⟨[⟨Symbol.terminal 0⟩]⟩]⟩], 0, [Symbol.nonTerminal 1]⟩

def lexInl : LexicalGrammar := ⟨2⟩

/-- Concrete inline collaborator for gInl: the start item of S expands to
the single inlined item over the spliced production (t0). -/
def inlKit : Inlines :=
  ⟨[⟨[⟨Symbol.terminal 0⟩]⟩],
    fun it => if it = ParseItem.normal 0 0 0 then some [ParseItem.inlined 0 0] else none⟩

/-- Kernel for gInl: the single item S -> . W with lookahead t1. -/
def kernelInl : PIS := [(ParseItem.normal 0 0 0, {Symbol.terminal 1})]

theorem inlKit_resolved :
    ∀ it l out, inlKit.items it = some l → out ∈ l → ¬ BelongsToInline gInl out := by
  intro it l out h hm
  by_cases h0 : it = ParseItem.normal 0 0 0
  · rw [show inlKit.items it = (if it = ParseItem.normal 0 0 0
      then some [ParseItem.inlined 0 0] else none) from rfl, h0] at h
    simp only [if_pos rfl] at h
    cases h
    rcases List.mem_singleton.mp hm with rfl
    exact id
  · rw [show inlKit.items it = (if it = ParseItem.normal 0 0 0
      then some [ParseItem.inlined 0 0] else none) from rfl] at h
    simp only [h0, if_false] at h
    cases h

/-- Witness for C6 at the concrete inline grammar gInl: the sole addition
under S and the sole key added by the closure are inline substitutes, never
items of the to-inline non-terminal W. -/
theorem c6_witness :
    (¬ BelongsToInline gInl (ParseItem.inlined 0 0)) ∧
    (ParseItem.inlined 0 0, ({Symbol.terminal 1} : LookaheadSet)) ∈
      transitiveClosure (mkBuilder gInl lexInl inlKit) gInl kernelInl := by
  have hmem : (ParseItem.inlined 0 0, ({Symbol.terminal 1} : LookaheadSet)) ∈
      transitiveClosure (mkBuilder gInl lexInl inlKit) gInl kernelInl := by decide
  refine ⟨?_, hmem⟩
  exact (c6_inline_never_a_target gInl lexInl inlKit kernelInl inlKit_resolved
    (by decide)).2 (ParseItem.inlined 0 0, ({Symbol.terminal 1} : LookaheadSet)) hmem

/-! ### Lookup lemmas for parse item sets -/

theorem pisLookup_nil (k : ParseItem) : pisLookup [] k = none := rfl

theorem pisLookup_cons (a : ParseItem × LookaheadSet) (t : PIS) (k : ParseItem) :
    pisLookup (a :: t) k = if a.1 = k then some a.2 else pisLookup t k := by
  by_cases h : a.1 = k
  · rw [if_pos h]
    unfold pisLookup
    rw [List.find?_cons_of_pos _ (by simpa using h)]
    rfl
  · rw [if_neg h]
    unfold pisLookup
    rw [List.find?_cons_of_neg _ (by simpa using h)]

theorem pisLookup_update (s : PIS) (k : ParseItem) (f : LookaheadSet → LookaheadSet)
    (j : ParseItem) :
    pisLookup (pisUpdate s k f) j =
      if j = k then some (f ((pisLookup s k).getD ∅)) else pisLookup s j := by
  induction s with
  | nil =>
    by_cases h : j = k
    · subst h
      simp [pisUpdate, pisLookup_cons, pisLookup_nil]
    · simp [pisUpdate, pisLookup_cons, pisLookup_nil, h,
        show ¬ (k = j) from fun he => h he.symm]
  | cons a t ih =>
    by_cases hak : a.1 = k
    · by_cases hj : j = k
      · subst hj
        simp [pisUpdate, hak, pisLookup_cons]
      · simp [pisUpdate, hak, pisLookup_cons, hj,
          show ¬ (k = j) from fun he => hj he.symm]
    · by_cases haj : a.1 = j
      · have hj : ¬ j = k := fun he => hak (haj.trans he)
        simp [pisUpdate, hak, pisLookup_cons, haj, hj, ih]
      · simp [pisUpdate, hak, pisLookup_cons, haj, ih]

theorem pisLookup_insert (s : PIS) (k : ParseItem) (v : LookaheadSet) (j : ParseItem) :
    pisLookup (pisInsert s k v) j = if j = k then some v else pisLookup s j := by
  induction s with
  | nil =>
    by_cases h : j = k
    · subst h
      simp [pisInsert, pisLookup_cons, pisLookup_nil]
    · simp [pisInsert, pisLookup_cons, pisLookup_nil, h,
        show ¬ (k = j) from fun he => h he.symm]
  | cons a t ih =>
    by_cases hak : a.1 = k
    · by_cases hj : j = k
      · subst hj
        simp [pisInsert, hak, pisLookup_cons]
      · simp [pisInsert, hak, pisLookup_cons, hj,
          show ¬ (k = j) from fun he => hj he.symm]
    · by_cases haj : a.1 = j
      · have hj : ¬ j = k := fun he => hak (haj.trans he)
        simp [pisInsert, hak, pisLookup_cons, haj, hj, ih]
      · simp [pisInsert, hak, pisLookup_cons, haj, ih]

/-- The keys of an item set. -/
def pisKeys (s : PIS) : List ParseItem := s.map Prod.fst

theorem pisLookup_isSome_iff_mem_keys (s : PIS) (k : ParseItem) :
    (pisLookup s k).isSome = true ↔ k ∈ pisKeys s := by
  induction s with
  | nil =>
    constructor
    · intro h; exact Bool.noConfusion h
    · intro h; exact absurd h (List.not_mem_nil k)
  | cons a t ih =>
    rw [pisLookup_cons]
    by_cases h : a.1 = k
    · simp [pisKeys, h]
    · rw [if_neg h]
      simp only [pisKeys, List.map_cons, List.mem_cons]
      constructor
      · intro hs
        exact Or.inr (ih.mp hs)
      · intro hs
        rcases hs with he | ht
        · exact absurd he.symm h
        · exact ih.mpr ht

theorem pisKeys_update (s : PIS) (k : ParseItem) (f : LookaheadSet → LookaheadSet) :
    pisKeys (pisUpdate s k f) = if k ∈ pisKeys s then pisKeys s else pisKeys s ++ [k] := by
  induction s with
  | nil => simp [pisUpdate, pisKeys]
  | cons a t ih =>
    unfold pisUpdate
    by_cases hak : a.1 = k
    · rw [if_pos hak]
      simp [pisKeys, hak]
    · rw [if_neg hak]
      simp only [pisKeys, List.map_cons, List.mem_cons] at ih ⊢
      by_cases hkt : k ∈ t.map Prod.fst
      · rw [if_pos hkt] at ih
        rw [if_pos (Or.inr hkt), ih]
      · rw [if_neg hkt] at ih
        rw [if_neg (by rintro (he | ht); exact hak he.symm; exact hkt ht), ih]
        rfl

theorem pisKeys_insert (s : PIS) (k : ParseItem) (v : LookaheadSet) :
    pisKeys (pisInsert s k v) = if k ∈ pisKeys s then pisKeys s else pisKeys s ++ [k] := by
  induction s with
  | nil => simp [pisInsert, pisKeys]
  | cons a t ih =>
    unfold pisInsert
    by_cases hak : a.1 = k
    · rw [if_pos hak]
      simp [pisKeys, hak]
    · rw [if_neg hak]
      simp only [pisKeys, List.map_cons, List.mem_cons] at ih ⊢
      by_cases hkt : k ∈ t.map Prod.fst
      · rw [if_pos hkt] at ih
        rw [if_pos (Or.inr hkt), ih]
      · rw [if_neg hkt] at ih
        rw [if_neg (by rintro (he | ht); exact hak he.symm; exact hkt ht), ih]
        rfl

theorem pisKeys_update_nodup (s : PIS) (k : ParseItem) (f : LookaheadSet → LookaheadSet)
    (h : (pisKeys s).Nodup) : (pisKeys (pisUpdate s k f)).Nodup := by
  rw [pisKeys_update]
  by_cases hk : k ∈ pisKeys s
  · rw [if_pos hk]; exact h
  · rw [if_neg hk]
    simpa using List.Nodup.append h (List.nodup_singleton k) (by simpa using hk)

theorem pisKeys_insert_nodup (s : PIS) (k : ParseItem) (v : LookaheadSet)
    (h : (pisKeys s).Nodup) : (pisKeys (pisInsert s k v)).Nodup := by
  rw [pisKeys_insert]
  by_cases hk : k ∈ pisKeys s
  · rw [if_pos hk]; exact h
  · rw [if_neg hk]
    simpa using List.Nodup.append h (List.nodup_singleton k) (by simpa using hk)

/-- State-predicate preservation along a left fold (the accumulator is a
single state rather than a list). -/
theorem foldl_pres2 {α β : Type} (P : α → Prop) (f : α → β → α) :
    ∀ (l : List β), (∀ acc x, x ∈ l → P acc → P (f acc x)) →
      ∀ (acc : α), P acc → P (l.foldl f acc) := by
  intro l
  induction l with
  | nil => intro _ acc h; exact h
  | cons x t ih =>
    intro hf acc h
    exact ih (fun acc2 y hy => hf acc2 y (List.mem_cons_of_mem x hy)) (f acc x)
      (hf acc x (List.mem_cons_self x t) h)

theorem addItem_keys_nodup (b : Builder) (g : SyntaxGrammar) (s : PIS) (item : ParseItem)
    (la : LookaheadSet) (h : (pisKeys s).Nodup) :
    (pisKeys (addItem b g s item la)).Nodup := by
  unfold addItem
  split
  · split
    · refine pisKeys_insert_nodup _ item la ?_
      rename_i st hst hnt
      refine foldl_pres2 (fun s2 : PIS => (pisKeys s2).Nodup) _ (b.additionsAt st.symbol.index)
        ?_ s h
      intro acc a _
      exact pisKeys_update_nodup acc a.item _
    · exact pisKeys_insert_nodup s item la h
  · exact pisKeys_insert_nodup s item la h

/-- The keys of any transitive-closure result contain no duplicates. -/
theorem transitiveClosure_keys_nodup (b : Builder) (g : SyntaxGrammar) (kernel : PIS) :
    (pisKeys (transitiveClosure b g kernel)).Nodup := by
  unfold transitiveClosure
  refine foldl_pres2 (fun s : PIS => (pisKeys s).Nodup) _ kernel ?_ [] (by simp [pisKeys])
  intro res e _ hres
  unfold closureStep
  cases hit : b.inlines.items e.1 with
  | some l =>
    simp only [hit]
    refine foldl_pres2 (fun s : PIS => (pisKeys s).Nodup) _ l ?_ res hres
    intro res2 it _ h2
    exact addItem_keys_nodup b g res2 it e.2 h2
  | none =>
    simp only [hit]
    exact addItem_keys_nodup b g res e.1 e.2 hres


/-! ### Claims C1, C3, C4: counterexamples from the final-insert overwrite

add_item inserts the processed kernel item with its own unmodified lookahead
set after applying the additions, overwriting any additions already unioned
under the same key.  When a kernel item is also an addition target of
another kernel entry, the final lookahead set of that key therefore depends
on the processing order. -/

/-- Counterexample to claim C1: the two orderings of the same kernel of gOv
produce different lookahead sets for the item A -> . (t0). -/
theorem c1_counterexample :
    List.Perm kernelOvSA kernelOvAS ∧
    pisLookup (transitiveClosure bOv gOv kernelOvSA) itemOvA ≠
      pisLookup (transitiveClosure bOv gOv kernelOvAS) itemOvA := by decide

/-- Counterexample to claim C3: re-applying transitive_closure to the
closure of the gOv kernel changes the lookahead set of A -> . (t0). -/
theorem c3_counterexample :
    pisLookup (transitiveClosure bOv gOv (transitiveClosure bOv gOv kernelOvSA)) itemOvA ≠
      pisLookup (transitiveClosure bOv gOv kernelOvSA) itemOvA := by decide

/-- Counterexample to claim C4: the two gOv kernels contain exactly the same
items with equal (hence mutually superset) lookahead sets, yet an item of
the closure of the second has a lookahead set that is not contained in its
lookahead set in the closure of the first. -/
theorem c4_counterexample :
    List.Perm kernelOvSA kernelOvAS ∧
    pisLookup kernelOvSA itemOvS = pisLookup kernelOvAS itemOvS ∧
    pisLookup kernelOvSA itemOvA = pisLookup kernelOvAS itemOvA ∧
    Symbol.terminal 1 ∈ (pisLookup (transitiveClosure bOv gOv kernelOvAS) itemOvA).getD ∅ ∧
    Symbol.terminal 1 ∉ (pisLookup (transitiveClosure bOv gOv kernelOvSA) itemOvA).getD ∅ := by
  decide

/-! ### Claim C4, amended: monotonicity for kernels processed in the same
order -/

/-- Entry-wise relation between two item sets: the same keys in the same
positions, with the lookahead set of the second contained in that of the
first. -/
def EntryGE (e1 e2 : ParseItem × LookaheadSet) : Prop :=
  e1.1 = e2.1 ∧ e2.2 ⊆ e1.2

/-- Parallel fold over one list with two step functions, preserving a
binary relation between the accumulators. -/
theorem foldl_rel {α β : Type} (R : α → α → Prop) (f1 f2 : α → β → α) :
    ∀ (l : List β), (∀ a1 a2 x, x ∈ l → R a1 a2 → R (f1 a1 x) (f2 a2 x)) →
      ∀ s1 s2, R s1 s2 → R (l.foldl f1 s1) (l.foldl f2 s2) := by
  intro l
  induction l with
  | nil => intro _ s1 s2 h; exact h
  | cons x t ih =>
    intro hf s1 s2 h
    exact ih (fun a1 a2 y hy => hf a1 a2 y (List.mem_cons_of_mem x hy)) (f1 s1 x) (f2 s2 x)
      (hf s1 s2 x (List.mem_cons_self x t) h)

theorem forall2_lookup {m1 m2 : PIS} (h : List.Forall₂ EntryGE m1 m2) (k : ParseItem)
    {L2 : LookaheadSet} (hl : pisLookup m2 k = some L2) :
    ∃ L1, pisLookup m1 k = some L1 ∧ L2 ⊆ L1 := by
  induction h with
  | nil => rw [pisLookup_nil] at hl; exact Option.noConfusion hl
  | cons he ht ih =>
    rename_i e1 e2 t1 t2
    rw [pisLookup_cons] at hl
    rw [pisLookup_cons]
    by_cases hk : e2.1 = k
    · rw [if_pos hk] at hl
      rw [if_pos (he.1.trans hk)]
      cases hl
      exact ⟨e1.2, rfl, he.2⟩
    · rw [if_neg hk] at hl
      rw [if_neg (fun hc => hk (he.1 ▸ hc))]
      exact ih hl

theorem par_pisUpdate {s1 s2 : PIS} (h : List.Forall₂ EntryGE s1 s2) (k : ParseItem)
    (f1 f2 : LookaheadSet → LookaheadSet) (hf : ∀ v1 v2, v2 ⊆ v1 → f2 v2 ⊆ f1 v1) :
    List.Forall₂ EntryGE (pisUpdate s1 k f1) (pisUpdate s2 k f2) := by
  induction h with
  | nil =>
    unfold pisUpdate
    exact List.Forall₂.cons ⟨rfl, hf ∅ ∅ (Finset.Subset.refl ∅)⟩ List.Forall₂.nil
  | cons he ht ih =>
    rename_i e1 e2 t1 t2
    unfold pisUpdate
    by_cases hk : e1.1 = k
    · rw [if_pos hk, if_pos (he.1 ▸ hk)]
      exact List.Forall₂.cons ⟨rfl, hf e1.2 e2.2 he.2⟩ ht
    · rw [if_neg hk, if_neg (fun hc => hk (he.1 ▸ hc))]
      exact List.Forall₂.cons he ih

theorem par_pisInsert {s1 s2 : PIS} (h : List.Forall₂ EntryGE s1 s2) (k : ParseItem)
    {v1 v2 : LookaheadSet} (hv : v2 ⊆ v1) :
    List.Forall₂ EntryGE (pisInsert s1 k v1) (pisInsert s2 k v2) := by
  induction h with
  | nil =>
    unfold pisInsert
    exact List.Forall₂.cons ⟨rfl, hv⟩ List.Forall₂.nil
  | cons he ht ih =>
    rename_i e1 e2 t1 t2
    unfold pisInsert
    by_cases hk : e1.1 = k
    · rw [if_pos hk, if_pos (he.1 ▸ hk)]
      exact List.Forall₂.cons ⟨rfl, hv⟩ ht
    · rw [if_neg hk, if_neg (fun hc => hk (he.1 ▸ hc))]
      exact List.Forall₂.cons he ih

theorem followingTokensOf_mono (b : Builder) (g : SyntaxGrammar) (item : ParseItem)
    {la1 la2 : LookaheadSet} (h : la2 ⊆ la1) :
    followingTokensOf b g item la2 ⊆ followingTokensOf b g item la1 := by
  unfold followingTokensOf
  cases (ParseItem.successor item).step g b.inlines with
  | some nextStep => exact Finset.Subset.refl _
  | none => exact h

theorem par_addItem (b : Builder) (g : SyntaxGrammar) {s1 s2 : PIS}
    (h : List.Forall₂ EntryGE s1 s2) (item : ParseItem) {la1 la2 : LookaheadSet}
    (hla : la2 ⊆ la1) :
    List.Forall₂ EntryGE (addItem b g s1 item la1) (addItem b g s2 item la2) := by
  unfold addItem
  cases hst : item.step g b.inlines with
  | none =>
    simp only [hst]
    exact par_pisInsert h item hla
  | some st =>
    simp only [hst]
    by_cases hnt : st.symbol.isNonTerminal = true
    · simp only [hnt, if_true]
      refine par_pisInsert ?_ item hla
      refine foldl_rel (List.Forall₂ EntryGE) _ _ (b.additionsAt st.symbol.index) ?_ s1 s2 h
      intro a1 a2 a _ hr
      refine par_pisUpdate hr a.item _ _ ?_
      intro v1 v2 hv
      refine Finset.union_subset_union (Finset.union_subset_union hv (Finset.Subset.refl _)) ?_
      cases a.info.propagatesLookaheads with
      | true => simpa using followingTokensOf_mono b g item hla
      | false => exact Finset.Subset.refl _
    · rw [if_neg hnt, if_neg hnt]
      exact par_pisInsert h item hla

/-- Parallel closure: kernels with the same items in the same order and
pointwise larger lookaheads yield entrywise larger closures. -/
theorem par_closureStep (b : Builder) (g : SyntaxGrammar) {s1 s2 : PIS}
    (hs : List.Forall₂ EntryGE s1 s2) {e1 e2 : ParseItem × LookaheadSet}
    (he : EntryGE e1 e2) :
    List.Forall₂ EntryGE (closureStep b g s1 e1) (closureStep b g s2 e2) := by
  unfold closureStep
  rw [show e2.1 = e1.1 from he.1.symm]
  cases hit : b.inlines.items e1.1 with
  | some l =>
    simp only [hit]
    refine foldl_rel (List.Forall₂ EntryGE) _ _ l ?_ s1 s2 hs
    intro a1 a2 it _ hr
    exact par_addItem b g hr it he.2
  | none =>
    simp only [hit]
    exact par_addItem b g hs e1.1 he.2

/-- Parallel closure: kernels with the same items in the same order and
pointwise larger lookaheads yield entrywise larger closures. -/
theorem par_closure (b : Builder) (g : SyntaxGrammar) {k1 k2 : PIS}
    (h : List.Forall₂ EntryGE k1 k2) :
    List.Forall₂ EntryGE (transitiveClosure b g k1) (transitiveClosure b g k2) := by
  unfold transitiveClosure
  have main : ∀ {k1 k2 : PIS}, List.Forall₂ EntryGE k1 k2 →
      ∀ {s1 s2 : PIS}, List.Forall₂ EntryGE s1 s2 →
        List.Forall₂ EntryGE (k1.foldl (closureStep b g) s1) (k2.foldl (closureStep b g) s2) := by
    intro k1 k2 hk
    induction hk with
    | nil => intro s1 s2 hs; exact hs
    | cons he ht ih =>
      intro s1 s2 hs
      exact ih (par_closureStep b g hs he)
  exact main h List.Forall₂.nil

/-- Claim C4, amended: for kernels that list exactly the same items in the
same iteration order, if the lookahead set of every entry of S1 contains
that of the corresponding entry of S2, then every item of closure(S2) is in
closure(S1) with a lookahead superset.  (As stated over unordered sets the
claim fails, see the counterexample: with equal lookaheads and permuted
iteration order the containment breaks.) -/
theorem c4_monotonicity (b : Builder) (g : SyntaxGrammar) (k1 k2 : PIS)
    (h : List.Forall₂ EntryGE k1 k2) (k : ParseItem) (L2 : LookaheadSet)
    (hl : pisLookup (transitiveClosure b g k2) k = some L2) :
    ∃ L1, pisLookup (transitiveClosure b g k1) k = some L1 ∧ L2 ⊆ L1 :=
  forall2_lookup (par_closure b g h) k hl

/-- Larger-lookahead variant of the gOv kernel. -/
def kernelOvBig : PIS :=
  [(itemOvS, {Symbol.terminal 1}), (itemOvA, {Symbol.terminal 1, Symbol.terminal 2})]

/-- Witness for the amended C4 at the concrete gOv kernels. -/
theorem c4_witness :
    ({Symbol.terminal 2} : LookaheadSet) ⊆
      (pisLookup (transitiveClosure bOv gOv kernelOvBig) itemOvA).getD ∅ := by
  have happ := c4_monotonicity bOv gOv kernelOvBig kernelOvSA
    (by constructor
        · exact ⟨rfl, Finset.Subset.refl _⟩
        · constructor
          · exact ⟨rfl, Finset.subset_insert _ _⟩
          · exact List.Forall₂.nil)
    itemOvA {Symbol.terminal 2} (by decide)
  rcases happ with ⟨L1, hL, hsub⟩
  rw [hL]
  exact hsub


/-! ### Claim C3, amended: re-closure never loses items or lookaheads -/

/-- The items actually processed for a kernel entry: the inline expansion
when the collaborator provides one, else the item itself. -/
def processedItems (b : Builder) (e : ParseItem × LookaheadSet) : List ParseItem :=
  match b.inlines.items e.1 with
  | some l => l
  | none => [e.1]

/-- A pisUpdate with an extensive function can only grow the value stored
under any key. -/
theorem pisUpdate_lookup_grows (s : PIS) (k2 : ParseItem) (f : LookaheadSet → LookaheadSet)
    (hf : ∀ v, v ⊆ f v) (k : ParseItem) {L : LookaheadSet}
    (h : pisLookup s k = some L) :
    ∃ L2, pisLookup (pisUpdate s k2 f) k = some L2 ∧ L ⊆ L2 := by
  rw [pisLookup_update]
  by_cases hk : k = k2
  · rw [if_pos hk]
    subst hk
    rw [h]
    exact ⟨f L, rfl, hf L⟩
  · rw [if_neg hk]
    exact ⟨L, h, Finset.Subset.refl L⟩

/-- addItem can only grow the value stored under a key distinct from the
inserted item. -/
theorem addItem_lookup_grows (b : Builder) (g : SyntaxGrammar) (s : PIS) (item : ParseItem)
    (la : LookaheadSet) (k : ParseItem) (hk : k ≠ item) {L : LookaheadSet}
    (h : pisLookup s k = some L) :
    ∃ L2, pisLookup (addItem b g s item la) k = some L2 ∧ L ⊆ L2 := by
  unfold addItem
  have hins : ∀ (s2 : PIS) (L2 : LookaheadSet), pisLookup s2 k = some L2 →
      pisLookup (pisInsert s2 item la) k = some L2 := by
    intro s2 L2 h2
    rw [pisLookup_insert, if_neg hk]
    exact h2
  split
  · split
    · rename_i st hst hnt
      have hfold : ∃ L2, pisLookup ((b.additionsAt st.symbol.index).foldl (fun acc a =>
          pisUpdate acc a.item (fun v => (v ∪ a.info.lookaheads) ∪
            (if a.info.propagatesLookaheads then followingTokensOf b g item la else ∅))) s) k
          = some L2 ∧ L ⊆ L2 := by
        refine foldl_pres2 (fun s2 : PIS => ∃ L2, pisLookup s2 k = some L2 ∧ L ⊆ L2) _ _ ?_ s
          ⟨L, h, Finset.Subset.refl L⟩
        intro acc a _ hacc
        rcases hacc with ⟨L2, h2, hsub⟩
        rcases pisUpdate_lookup_grows acc a.item _
          (fun v => Finset.Subset.trans (Finset.subset_union_left)
            (Finset.subset_union_left)) k h2 with ⟨L3, h3, hsub3⟩
        exact ⟨L3, h3, Finset.Subset.trans hsub hsub3⟩
      rcases hfold with ⟨L2, h2, hsub⟩
      exact ⟨L2, hins _ L2 h2, hsub⟩
    · exact ⟨L, hins s L h, Finset.Subset.refl L⟩
  · exact ⟨L, hins s L h, Finset.Subset.refl L⟩

/-- closureStep can only grow the value stored under a key it does not
process. -/
theorem closureStep_lookup_grows (b : Builder) (g : SyntaxGrammar) (s : PIS)
    (e : ParseItem × LookaheadSet) (k : ParseItem) (hk : k ∉ processedItems b e)
    {L : LookaheadSet} (h : pisLookup s k = some L) :
    ∃ L2, pisLookup (closureStep b g s e) k = some L2 ∧ L ⊆ L2 := by
  unfold closureStep
  unfold processedItems at hk
  cases hit : b.inlines.items e.1 with
  | some l =>
    simp only [hit]
    rw [hit] at hk
    refine foldl_pres2 (fun s2 : PIS => ∃ L2, pisLookup s2 k = some L2 ∧ L ⊆ L2) _ l ?_ s
      ⟨L, h, Finset.Subset.refl L⟩
    intro acc it hitl hacc
    rcases hacc with ⟨L2, h2, hsub⟩
    rcases addItem_lookup_grows b g acc it e.2 k (fun he => hk (he ▸ hitl)) h2 with
      ⟨L3, h3, hsub3⟩
    exact ⟨L3, h3, Finset.Subset.trans hsub hsub3⟩
  | none =>
    simp only [hit]
    rw [hit] at hk
    exact addItem_lookup_grows b g s e.1 e.2 k
      (fun he => hk (he ▸ List.mem_singleton_self e.1)) h

/-- Folding closureStep over entries with pairwise distinct unexpandable
keys leaves every processed entry present with a lookahead superset. -/
theorem closure_fold_extensive (b : Builder) (g : SyntaxGrammar) :
    ∀ (l : PIS) (acc : PIS), (pisKeys l).Nodup →
      (∀ e ∈ l, b.inlines.items e.1 = none) →
      ∀ e ∈ l, ∃ L, pisLookup (l.foldl (closureStep b g) acc) e.1 = some L ∧ e.2 ⊆ L := by
  intro l
  induction l with
  | nil => intro acc _ _ e he; exact absurd he (List.not_mem_nil e)
  | cons e0 t ih =>
    intro acc hnd hnone e he
    have hnd2 : (pisKeys t).Nodup := (List.nodup_cons.mp (by simpa [pisKeys] using hnd)).2
    have h0 : e0.1 ∉ pisKeys t := (List.nodup_cons.mp (by simpa [pisKeys] using hnd)).1
    rcases List.mem_cons.mp he with rfl | het
    · have hstart : pisLookup (closureStep b g acc e) e.1 = some e.2 := by
        unfold closureStep
        rw [hnone e (List.mem_cons_self e t)]
        unfold addItem
        rw [pisLookup_insert, if_pos rfl]
      rw [List.foldl_cons]
      refine foldl_pres2
        (fun s2 : PIS => ∃ L, pisLookup s2 e.1 = some L ∧ e.2 ⊆ L) _ t ?_ _
        ⟨e.2, hstart, Finset.Subset.refl e.2⟩
      intro acc2 e1 he1 hacc
      rcases hacc with ⟨L2, h2, hsub⟩
      have hk : e.1 ∉ processedItems b e1 := by
        unfold processedItems
        rw [hnone e1 (List.mem_cons_of_mem e he1)]
        intro hc
        rcases List.mem_singleton.mp hc with he1eq
        exact h0 (he1eq ▸ List.mem_map_of_mem Prod.fst he1)
      rcases closureStep_lookup_grows b g acc2 e1 e.1 hk h2 with ⟨L3, h3, hsub3⟩
      exact ⟨L3, h3, Finset.Subset.trans hsub hsub3⟩
    · rw [List.foldl_cons]
      exact ih (closureStep b g acc e0) hnd2
        (fun e2 he2 => hnone e2 (List.mem_cons_of_mem e0 he2)) e het

/-- Under a fully resolving inline collaborator every addition item is
unexpandable. -/
theorem additions_unexpandable (g : SyntaxGrammar) (lex : LexicalGrammar) (inl : Inlines)
    (hresnone : ∀ it l out, inl.items it = some l → out ∈ l → inl.items out = none) :
    ∀ i, ∀ a ∈ (mkBuilder g lex inl).additionsAt i, inl.items a.item = none := by
  intro i a ha
  by_cases hi : i < g.vars.length
  · rw [additionsAt_eq g lex inl i hi] at ha
    rcases additionsFor_shape g inl _ a ha with ⟨v, p, _, he, hn⟩ | ⟨v, p, l, _, hs, hm⟩
    · rw [he]
      exact hn
    · exact hresnone _ l a.item hs hm
  · rw [additionsAt_out_of_range g lex inl i hi] at ha
    exact absurd ha (List.not_mem_nil a)

/-- Every key of a transitive-closure result is unexpandable when the inline
collaborator resolves fully and the unexpanded kernel items are. -/
theorem closure_keys_unexpandable (g : SyntaxGrammar) (lex : LexicalGrammar) (inl : Inlines)
    (kernel : PIS)
    (hresnone : ∀ it l out, inl.items it = some l → out ∈ l → inl.items out = none) :
    ∀ e ∈ transitiveClosure (mkBuilder g lex inl) g kernel, inl.items e.1 = none := by
  unfold transitiveClosure
  refine foldl_pres_mem (fun e : ParseItem × LookaheadSet => inl.items e.1 = none) _ kernel ?_ []
    (by intro a h; exact absurd h (List.not_mem_nil a))
  intro res e _ hres2
  unfold closureStep
  cases hit : (mkBuilder g lex inl).inlines.items e.1 with
  | some l =>
    simp only [hit]
    refine foldl_pres_mem (fun e2 : ParseItem × LookaheadSet => inl.items e2.1 = none) _ l ?_
      res hres2
    intro res2 it hitl hres3
    exact addItem_forall_keys (fun k => inl.items k = none) _ g res2 it e.2
      (additions_unexpandable g lex inl hresnone) hres3 (hresnone e.1 l it hit hitl)
  | none =>
    simp only [hit]
    exact addItem_forall_keys (fun k => inl.items k = none) _ g res e.1 e.2
      (additions_unexpandable g lex inl hresnone) hres2 hit

/-- Claim C3, amended: transitive_closure applied to its own result keeps
every item with a lookahead superset (the per-item lookahead sets need not
be equal, see the counterexample), provided the inline collaborator resolves
fully.  The keys of the closure result are thereby stable under
re-application in the containment direction. -/
theorem c3_closure_extensive (g : SyntaxGrammar) (lex : LexicalGrammar) (inl : Inlines)
    (kernel : PIS)
    (hresnone : ∀ it l out, inl.items it = some l → out ∈ l → inl.items out = none) :
    ∀ e ∈ transitiveClosure (mkBuilder g lex inl) g kernel,
      ∃ L, pisLookup (transitiveClosure (mkBuilder g lex inl) g
        (transitiveClosure (mkBuilder g lex inl) g kernel)) e.1 = some L ∧ e.2 ⊆ L := by
  intro e he
  have hnd := transitiveClosure_keys_nodup (mkBuilder g lex inl) g kernel
  have hnone := closure_keys_unexpandable g lex inl kernel hresnone
  have hnone2 : ∀ e2 ∈ transitiveClosure (mkBuilder g lex inl) g kernel,
      (mkBuilder g lex inl).inlines.items e2.1 = none := hnone
  exact closure_fold_extensive (mkBuilder g lex inl) g _ [] hnd hnone2 e he

/-- Witness for the amended C3 at the concrete gOv kernel. -/
theorem c3_witness :
    Symbol.terminal 2 ∈ (pisLookup (transitiveClosure bOv gOv
      (transitiveClosure bOv gOv kernelOvSA)) itemOvA).getD ∅ := by
  have happ := c3_closure_extensive gOv lexOv noInl kernelOvSA
    (fun it l out h hm => Option.noConfusion h)
    (itemOvA, ({Symbol.terminal 2} : LookaheadSet)) (by decide)
  rcases happ with ⟨L, hL, hsub⟩
  have : pisLookup (transitiveClosure bOv gOv (transitiveClosure bOv gOv kernelOvSA))
      itemOvA = some L := hL
  rw [this]
  exact hsub (Finset.mem_singleton_self _)


/-! ### Claim C1, amended: order independence for non-colliding kernels

Each kernel entry acts on the result through a sequence of primitive
operations: union-updates at the addition targets and one overwrite-insert
per processed item.  Two entries commute (up to lookup equality) when no
insert of one shares a key with any operation of the other.  The
counterexample shows that without that condition the overwrite breaks order
independence. -/

/-- A primitive operation on a parse item set: a union-update or an
overwrite-insert at a key. -/
inductive PisOp where
  | upd (k : ParseItem) (c : LookaheadSet)
  | ins (k : ParseItem) (v : LookaheadSet)

def applyOp (s : PIS) : PisOp → PIS
  | PisOp.upd k c => pisUpdate s k (fun v => v ∪ c)
  | PisOp.ins k v => pisInsert s k v

def applyOps (s : PIS) (l : List PisOp) : PIS := l.foldl applyOp s

def opKey : PisOp → ParseItem
  | PisOp.upd k _ => k
  | PisOp.ins k _ => k

def opIsIns : PisOp → Bool
  | PisOp.upd _ _ => false
  | PisOp.ins _ _ => true

/-- Two primitive operations commute when their keys differ or neither is
an insert. -/
def OpCommute (o1 o2 : PisOp) : Prop :=
  opKey o1 ≠ opKey o2 ∨ (opIsIns o1 = false ∧ opIsIns o2 = false)

instance (o1 o2 : PisOp) : Decidable (OpCommute o1 o2) := by
  unfold OpCommute; infer_instance

theorem opCommute_symm {o1 o2 : PisOp} (h : OpCommute o1 o2) : OpCommute o2 o1 := by
  rcases h with h | ⟨h1, h2⟩
  · exact Or.inl (fun he => h he.symm)
  · exact Or.inr ⟨h2, h1⟩

/-- The operations performed by add_item: one union-update per addition when
the dot symbol is a non-terminal, then the overwrite-insert of the item. -/
def itemOps (b : Builder) (g : SyntaxGrammar) (item : ParseItem) (la : LookaheadSet) :
    List PisOp :=
  (match item.step g b.inlines with
    | some st =>
      if st.symbol.isNonTerminal then
        (b.additionsAt st.symbol.index).map (fun a =>
          PisOp.upd a.item (a.info.lookaheads ∪
            (if a.info.propagatesLookaheads then followingTokensOf b g item la else ∅)))
      else []
    | none => []) ++ [PisOp.ins item la]

/-- The operations performed for a whole kernel entry, across its inline
expansion. -/
def entryOps (b : Builder) (g : SyntaxGrammar) (e : ParseItem × LookaheadSet) : List PisOp :=
  (processedItems b e).foldr (fun it acc => itemOps b g it e.2 ++ acc) []

theorem applyOps_append (s : PIS) (l1 l2 : List PisOp) :
    applyOps s (l1 ++ l2) = applyOps (applyOps s l1) l2 := by
  unfold applyOps
  rw [List.foldl_append]

theorem pisUpdate_congr (s : PIS) (k : ParseItem) (f1 f2 : LookaheadSet → LookaheadSet)
    (h : ∀ v, f1 v = f2 v) : pisUpdate s k f1 = pisUpdate s k f2 := by
  induction s with
  | nil => unfold pisUpdate; rw [h ∅]
  | cons a t ih =>
    unfold pisUpdate
    by_cases hak : a.1 = k
    · rw [if_pos hak, if_pos hak, h a.2]
    · rw [if_neg hak, if_neg hak, ih]

/-- add_item is the application of its operation list. -/
theorem addItem_eq_applyOps (b : Builder) (g : SyntaxGrammar) (s : PIS) (item : ParseItem)
    (la : LookaheadSet) : addItem b g s item la = applyOps s (itemOps b g item la) := by
  unfold addItem itemOps
  cases hst : item.step g b.inlines with
  | none =>
    simp only [hst]
    rfl
  | some st =>
    simp only [hst]
    by_cases hnt : st.symbol.isNonTerminal = true
    · simp only [hnt, if_true]
      rw [applyOps_append]
      have hfold : ∀ (l : List TransitiveClosureAddition) (s2 : PIS),
          l.foldl (fun acc a => pisUpdate acc a.item (fun v =>
            (v ∪ a.info.lookaheads) ∪
              (if a.info.propagatesLookaheads then followingTokensOf b g item la else ∅))) s2 =
          applyOps s2 (l.map (fun a => PisOp.upd a.item (a.info.lookaheads ∪
            (if a.info.propagatesLookaheads then followingTokensOf b g item la else ∅)))) := by
        intro l
        induction l with
        | nil => intro s2; rfl
        | cons a t ih =>
          intro s2
          rw [List.foldl_cons, List.map_cons, show applyOps s2 (PisOp.upd a.item
            (a.info.lookaheads ∪ (if a.info.propagatesLookaheads
              then followingTokensOf b g item la else ∅)) :: t.map _) =
            applyOps (applyOp s2 (PisOp.upd a.item (a.info.lookaheads ∪
              (if a.info.propagatesLookaheads then followingTokensOf b g item la else ∅))))
              (t.map _) from rfl, ← ih]
          rw [show applyOp s2 (PisOp.upd a.item (a.info.lookaheads ∪
            (if a.info.propagatesLookaheads then followingTokensOf b g item la else ∅))) =
            pisUpdate s2 a.item (fun v => v ∪ (a.info.lookaheads ∪
              (if a.info.propagatesLookaheads then followingTokensOf b g item la else ∅)))
            from rfl]
          rw [pisUpdate_congr s2 a.item _ _ (fun v => (Finset.union_assoc v _ _).symm)]
      rw [hfold]
      rfl
    · simp only [hnt, if_false]
      rfl

/-- closureStep is the application of the operation list of its entry. -/
theorem closureStep_eq_applyOps (b : Builder) (g : SyntaxGrammar) (s : PIS)
    (e : ParseItem × LookaheadSet) : closureStep b g s e = applyOps s (entryOps b g e) := by
  unfold closureStep entryOps processedItems
  cases hit : b.inlines.items e.1 with
  | none =>
    simp only [hit, List.foldr_cons, List.foldr_nil]
    rw [List.append_nil]
    exact addItem_eq_applyOps b g s e.1 e.2
  | some l =>
    simp only [hit]
    have main : ∀ (l2 : List ParseItem) (s2 : PIS),
        l2.foldl (fun res2 it => addItem b g res2 it e.2) s2 =
          applyOps s2 (l2.foldr (fun it acc => itemOps b g it e.2 ++ acc) []) := by
      intro l2
      induction l2 with
      | nil => intro s2; rfl
      | cons it t ih =>
        intro s2
        rw [List.foldl_cons, List.foldr_cons, applyOps_append, ← addItem_eq_applyOps]
        exact ih (addItem b g s2 it e.2)
    exact main l s

/-- Lookup equality of two item sets: the same keys with equal per-item
lookahead sets. -/
def pisEqv (s1 s2 : PIS) : Prop := ∀ k, pisLookup s1 k = pisLookup s2 k

theorem pisEqv_refl (s : PIS) : pisEqv s s := fun _ => rfl

theorem pisEqv_trans {s1 s2 s3 : PIS} (h1 : pisEqv s1 s2) (h2 : pisEqv s2 s3) :
    pisEqv s1 s3 := fun k => (h1 k).trans (h2 k)

theorem applyOp_cong {s1 s2 : PIS} (h : pisEqv s1 s2) (o : PisOp) :
    pisEqv (applyOp s1 o) (applyOp s2 o) := by
  cases o with
  | upd k c =>
    intro j
    show pisLookup (pisUpdate s1 k _) j = pisLookup (pisUpdate s2 k _) j
    rw [pisLookup_update, pisLookup_update, h k, h j]
  | ins k v =>
    intro j
    show pisLookup (pisInsert s1 k v) j = pisLookup (pisInsert s2 k v) j
    rw [pisLookup_insert, pisLookup_insert, h j]

theorem applyOps_cong {s1 s2 : PIS} (h : pisEqv s1 s2) (l : List PisOp) :
    pisEqv (applyOps s1 l) (applyOps s2 l) := by
  induction l generalizing s1 s2 with
  | nil => exact h
  | cons o t ih => exact ih (applyOp_cong h o)

/-- The effect of one primitive operation on the value stored under its
key. -/
def opVal : PisOp → Option LookaheadSet → Option LookaheadSet
  | PisOp.upd _ c, x => some ((x.getD ∅) ∪ c)
  | PisOp.ins _ v, _ => some v

theorem pisLookup_applyOp (s : PIS) (o : PisOp) (j : ParseItem) :
    pisLookup (applyOp s o) j =
      if j = opKey o then opVal o (pisLookup s j) else pisLookup s j := by
  cases o with
  | upd k c =>
    show pisLookup (pisUpdate s k _) j = _
    rw [pisLookup_update]
    simp only [opKey, opVal]
    by_cases h : j = k
    · rw [if_pos h, if_pos h]
      subst h
      rfl
    · rw [if_neg h, if_neg h]
  | ins k v =>
    show pisLookup (pisInsert s k v) j = _
    rw [pisLookup_insert]
    simp only [opKey, opVal]

/-- Commuting primitive operations can be applied in either order. -/
theorem applyOp_swap {o1 o2 : PisOp} (h : OpCommute o1 o2) (s : PIS) :
    pisEqv (applyOp (applyOp s o1) o2) (applyOp (applyOp s o2) o1) := by
  intro j
  rw [pisLookup_applyOp, pisLookup_applyOp, pisLookup_applyOp, pisLookup_applyOp]
  by_cases h1 : j = opKey o1
  · by_cases h2 : j = opKey o2
    · have hkk : opKey o1 = opKey o2 := h1.symm.trans h2
      rcases h with hk | ⟨hi1, hi2⟩
      · exact absurd hkk hk
      · rw [if_pos h1, if_pos h2, if_pos h2, if_pos h1]
        cases o1 with
        | ins k1 v1 => exact Bool.noConfusion hi1
        | upd k1 c1 =>
          cases o2 with
          | ins k2 v2 => exact Bool.noConfusion hi2
          | upd k2 c2 =>
            simp only [opVal, Option.getD_some]
            rw [Finset.union_right_comm]
    · rw [if_neg h2, if_pos h1, if_pos h1, if_neg h2]
  · by_cases h2 : j = opKey o2
    · rw [if_pos h2, if_neg h1, if_pos h2, if_neg h1]
    · rw [if_neg h2, if_neg h1, if_neg h1, if_neg h2]

/-- A single operation commuting with every operation of a list can be
pulled out of its application. -/
theorem applyOp_list_swap {o1 : PisOp} :
    ∀ {l : List PisOp}, (∀ o2 ∈ l, OpCommute o1 o2) → ∀ s,
      pisEqv (applyOps (applyOp s o1) l) (applyOp (applyOps s l) o1) := by
  intro l
  induction l with
  | nil => intro _ s; exact pisEqv_refl _
  | cons o2 t ih =>
    intro h s
    have h1 : OpCommute o1 o2 := h o2 (List.mem_cons_self o2 t)
    have ht : ∀ o ∈ t, OpCommute o1 o := fun o ho => h o (List.mem_cons_of_mem o2 ho)
    show pisEqv (applyOps (applyOp (applyOp s o1) o2) t) (applyOp (applyOps (applyOp s o2) t) o1)
    refine pisEqv_trans (applyOps_cong (applyOp_swap h1 s) t) ?_
    exact ih ht (applyOp s o2)

/-- Pairwise commuting operation lists can be applied in either order. -/
theorem applyOps_lists_swap :
    ∀ {l1 l2 : List PisOp}, (∀ o1 ∈ l1, ∀ o2 ∈ l2, OpCommute o1 o2) → ∀ s,
      pisEqv (applyOps (applyOps s l1) l2) (applyOps (applyOps s l2) l1) := by
  intro l1
  induction l1 with
  | nil => intro l2 _ s; exact pisEqv_refl _
  | cons o1 t1 ih =>
    intro l2 h s
    have h1 : ∀ o2 ∈ l2, OpCommute o1 o2 := h o1 (List.mem_cons_self o1 t1)
    have ht : ∀ o ∈ t1, ∀ o2 ∈ l2, OpCommute o o2 :=
      fun o ho => h o (List.mem_cons_of_mem o1 ho)
    show pisEqv (applyOps (applyOps (applyOp s o1) t1) l2)
      (applyOps (applyOp (applyOps s l2) o1) t1)
    refine pisEqv_trans (ih ht (applyOp s o1)) ?_
    exact applyOps_cong (applyOp_list_swap h1 s) t1

/-- Two kernel entries are compatible when all their primitive operations
commute: no item inserted while processing one entry is also a key touched
by the other. -/
def EntriesCommute (b : Builder) (g : SyntaxGrammar) (e1 e2 : ParseItem × LookaheadSet) :
    Prop :=
  ∀ o1 ∈ entryOps b g e1, ∀ o2 ∈ entryOps b g e2, OpCommute o1 o2

instance (b : Builder) (g : SyntaxGrammar) (e1 e2 : ParseItem × LookaheadSet) :
    Decidable (EntriesCommute b g e1 e2) := by
  unfold EntriesCommute; infer_instance

theorem entriesCommute_symm {b : Builder} {g : SyntaxGrammar} :
    Symmetric (EntriesCommute b g) :=
  fun _ _ h o2 h2 o1 h1 => opCommute_symm (h o1 h1 o2 h2)

theorem closureStep_cong (b : Builder) (g : SyntaxGrammar) {s1 s2 : PIS}
    (h : pisEqv s1 s2) (e : ParseItem × LookaheadSet) :
    pisEqv (closureStep b g s1 e) (closureStep b g s2 e) := by
  rw [closureStep_eq_applyOps, closureStep_eq_applyOps]
  exact applyOps_cong h _

theorem closureStep_swap (b : Builder) (g : SyntaxGrammar)
    {e1 e2 : ParseItem × LookaheadSet} (h : EntriesCommute b g e1 e2) (s : PIS) :
    pisEqv (closureStep b g (closureStep b g s e1) e2)
      (closureStep b g (closureStep b g s e2) e1) := by
  rw [closureStep_eq_applyOps, closureStep_eq_applyOps, closureStep_eq_applyOps,
    closureStep_eq_applyOps]
  exact applyOps_lists_swap h s

theorem closure_fold_cong (b : Builder) (g : SyntaxGrammar) (l : PIS) {s1 s2 : PIS}
    (h : pisEqv s1 s2) :
    pisEqv (l.foldl (closureStep b g) s1) (l.foldl (closureStep b g) s2) := by
  induction l generalizing s1 s2 with
  | nil => exact h
  | cons e t ih => exact ih (closureStep_cong b g h e)

/-- Folding the closure step over a permutation of a pairwise-compatible
kernel gives a lookup-equal result. -/
theorem closure_fold_perm (b : Builder) (g : SyntaxGrammar) :
    ∀ {l1 l2 : PIS}, l1.Perm l2 → List.Pairwise (EntriesCommute b g) l1 →
      ∀ s, pisEqv (l1.foldl (closureStep b g) s) (l2.foldl (closureStep b g) s) := by
  intro l1 l2 hperm
  induction hperm with
  | nil => intro _ s; exact pisEqv_refl _
  | cons x p ih =>
    intro hp s
    exact ih (List.pairwise_cons.mp hp).2 (closureStep b g s x)
  | swap x y l =>
    intro hp s
    have hxy : EntriesCommute b g y x := (List.pairwise_cons.mp hp).1 x
      (List.mem_cons_self x l)
    exact closure_fold_cong b g l (closureStep_swap b g hxy s)
  | trans p1 p2 ih1 ih2 =>
    intro hp s
    refine pisEqv_trans (ih1 hp s) (ih2 ?_ s)
    exact (List.Perm.pairwise_iff (fun {x y} h => entriesCommute_symm h) p1).mp hp


/-- Claim C1, amended: for kernels whose entries are pairwise compatible —
no item inserted while processing one kernel entry (after inline expansion)
is also a key touched by another entry — permuting the iteration order of
the kernel entries yields an identical result ParseItemSet: the same keys
with per-item lookahead sets equal.  (Without the compatibility condition
the final overwrite-insert of each kernel item makes the result order
dependent, see the counterexample.) -/
theorem c1_order_independence (b : Builder) (g : SyntaxGrammar) (k1 k2 : PIS)
    (hp : List.Pairwise (EntriesCommute b g) k1) (hperm : k1.Perm k2) (k : ParseItem) :
    pisLookup (transitiveClosure b g k1) k = pisLookup (transitiveClosure b g k2) k := by
  unfold transitiveClosure
  exact closure_fold_perm b g hperm hp [] k

def bTwo : Builder := mkBuilder gTwo lexTwo noInl

/-- A pairwise-compatible kernel of gTwo: the two entries expand the same
non-terminal (their addition targets overlap) but neither inserts a key the
other touches. -/
def kernelC1a : PIS :=
  [(ParseItem.normal 0 0 0, {Symbol.terminal 2}), (ParseItem.normal 1 0 1, {Symbol.terminal 2})]

/-- The same kernel with the entries swapped. -/
def kernelC1b : PIS :=
  [(ParseItem.normal 1 0 1, {Symbol.terminal 2}), (ParseItem.normal 0 0 0, {Symbol.terminal 2})]

/-- Witness for the amended C1 at the concrete gTwo kernels. -/
theorem c1_witness :
    List.Pairwise (EntriesCommute bTwo gTwo) kernelC1a ∧
    List.Perm kernelC1a kernelC1b ∧
    pisLookup (transitiveClosure bTwo gTwo kernelC1a) (ParseItem.normal 1 0 0) =
      pisLookup (transitiveClosure bTwo gTwo kernelC1b) (ParseItem.normal 1 0 0) :=
  ⟨by decide, by decide,
    c1_order_independence bTwo gTwo kernelC1a kernelC1b (by decide) (by decide)
      (ParseItem.normal 1 0 0)⟩


/-! ### Claim C7 -/

/-- Grammar gEx: A -> B (t0), B -> (t1), S -> A. -/
def gEx : SyntaxGrammar :=
  ⟨[⟨[⟨[⟨Symbol.nonTerminal 1⟩, ⟨Symbol.terminal 0⟩]⟩]⟩,
    ⟨[⟨[⟨Symbol.terminal 1⟩]⟩]⟩,
    ⟨[⟨[⟨Symbol.nonTerminal 0⟩]⟩]⟩], 0, []⟩

def lexEx : LexicalGrammar := ⟨3⟩

def bEx : Builder := mkBuilder gEx lexEx noInl

/-- Kernel of gEx: the single item S -> . A with lookahead t0. -/
def kernelEx : PIS := [(ParseItem.normal 2 0 0, {Symbol.terminal 0})]

/-- Counterexample to claim C7 as stated.  First failure: in the
left-recursive grammar gRec the addition under A targets the processed
entry's own item, and the final overwrite-insert leaves a result lookahead
set that does not include the addition's concrete lookaheads.  Second
failure: in gEx a non-propagate addition's result lookahead set does include
the following-tokens set, so the inclusion does not hold -exactly when- the
addition propagates. -/
theorem c7_counterexample :
    ((⟨ParseItem.normal 0 0 0, ⟨{Symbol.terminal 0}, true⟩⟩ : TransitiveClosureAddition) ∈
        bRec.additionsAt 0 ∧
      (ParseItem.normal 0 0 0).step gRec bRec.inlines = some ⟨Symbol.nonTerminal 0⟩ ∧
      pisLookup (transitiveClosure bRec gRec kernelRec) (ParseItem.normal 0 0 0) =
        some {Symbol.terminal 1} ∧
      Symbol.terminal 0 ∉ ({Symbol.terminal 1} : LookaheadSet)) ∧
    ((⟨ParseItem.normal 1 0 0, ⟨{Symbol.terminal 0}, false⟩⟩ : TransitiveClosureAddition) ∈
        bEx.additionsAt 0 ∧
      followingTokensOf bEx gEx (ParseItem.normal 2 0 0) {Symbol.terminal 0} =
        {Symbol.terminal 0} ∧
      Symbol.terminal 0 ∈
        (pisLookup (transitiveClosure bEx gEx kernelEx) (ParseItem.normal 1 0 0)).getD ∅) := by
  decide

/-- Every addition of the processed list contributes its concrete lookaheads
(and the following tokens when it propagates) to the value stored under its
item. -/
theorem additions_fold_contribution (b : Builder) (g : SyntaxGrammar) (item : ParseItem)
    (la : LookaheadSet) :
    ∀ (l : List TransitiveClosureAddition) (s : PIS), ∀ a ∈ l,
      ∃ L, pisLookup (l.foldl (fun acc ad => pisUpdate acc ad.item (fun v =>
          (v ∪ ad.info.lookaheads) ∪
            (if ad.info.propagatesLookaheads then followingTokensOf b g item la else ∅))) s)
        a.item = some L ∧
        (a.info.lookaheads ∪
          (if a.info.propagatesLookaheads then followingTokensOf b g item la else ∅)) ⊆ L := by
  intro l
  induction l with
  | nil => intro s a ha; exact absurd ha (List.not_mem_nil a)
  | cons a0 t ih =>
    intro s a ha
    rcases List.mem_cons.mp ha with rfl | hat
    · rw [List.foldl_cons]
      have h0 : pisLookup (pisUpdate s a.item (fun v => (v ∪ a.info.lookaheads) ∪
          (if a.info.propagatesLookaheads then followingTokensOf b g item la else ∅)))
          a.item = some ((((pisLookup s a.item).getD ∅) ∪ a.info.lookaheads) ∪
            (if a.info.propagatesLookaheads then followingTokensOf b g item la else ∅)) := by
        rw [pisLookup_update, if_pos rfl]
      have hsub : (a.info.lookaheads ∪
          (if a.info.propagatesLookaheads then followingTokensOf b g item la else ∅)) ⊆
          ((((pisLookup s a.item).getD ∅) ∪ a.info.lookaheads) ∪
            (if a.info.propagatesLookaheads then followingTokensOf b g item la else ∅)) :=
        Finset.union_subset_union (Finset.subset_union_right) (Finset.Subset.refl _)
      refine foldl_pres2 (fun s2 : PIS => ∃ L, pisLookup s2 a.item = some L ∧
        (a.info.lookaheads ∪ (if a.info.propagatesLookaheads
          then followingTokensOf b g item la else ∅)) ⊆ L) _ t ?_ _ ⟨_, h0, hsub⟩
      intro acc ad _ hacc
      rcases hacc with ⟨L2, h2, hsub2⟩
      rcases pisUpdate_lookup_grows acc ad.item _
        (fun v => Finset.Subset.trans (Finset.subset_union_left) (Finset.subset_union_left))
        a.item h2 with ⟨L3, h3, hsub3⟩
      exact ⟨L3, h3, Finset.Subset.trans hsub2 hsub3⟩
    · rw [List.foldl_cons]
      exact ih _ a hat

/-- Claim C7, amended: when add_item processes an item whose dot symbol is a
non-terminal, then for every precomputed addition under that non-terminal
whose item differs from the processed item, the result's lookahead set for
addition.item includes the addition's concrete lookaheads and additionally
includes the following-tokens set whenever the addition propagates (the
-exactly when- direction and the self-target case fail, see the
counterexample); and the end-to-end gTwo example of the claim holds: the
closure of {(S -> . A, (t2))} contains (A -> . (t0) A, (t2)) and
(A -> . (t1), (t2)). -/
theorem c7_add_item_characterization (b : Builder) (g : SyntaxGrammar) (s : PIS)
    (item : ParseItem) (la : LookaheadSet) (st : ProductionStep)
    (hst : item.step g b.inlines = some st) (hnt : st.symbol.isNonTerminal = true) :
    (∀ a ∈ b.additionsAt st.symbol.index, a.item ≠ item →
      ∃ L, pisLookup (addItem b g s item la) a.item = some L ∧
        a.info.lookaheads ⊆ L ∧
        (a.info.propagatesLookaheads = true → followingTokensOf b g item la ⊆ L)) ∧
    (pisLookup (transitiveClosure bTwo gTwo
        [(ParseItem.normal 0 0 0, {Symbol.terminal 2})]) (ParseItem.normal 1 0 0) =
      some {Symbol.terminal 2} ∧
    pisLookup (transitiveClosure bTwo gTwo
        [(ParseItem.normal 0 0 0, {Symbol.terminal 2})]) (ParseItem.normal 1 1 0) =
      some {Symbol.terminal 2}) := by
  constructor
  · intro a ha hne
    unfold addItem
    simp only [hst, hnt, if_true]
    rcases additions_fold_contribution b g item la (b.additionsAt st.symbol.index) s a ha with
      ⟨L, hL, hsub⟩
    refine ⟨L, ?_, ?_, ?_⟩
    · rw [pisLookup_insert, if_neg hne]
      exact hL
    · exact Finset.Subset.trans (Finset.subset_union_left) hsub
    · intro hprop
      refine Finset.Subset.trans ?_ hsub
      rw [hprop, if_pos rfl]
      exact Finset.subset_union_right
  · exact ⟨by decide, by decide⟩

/-- Witness for the amended C7: in gTwo, processing S -> . A with lookahead
t2 gives the addition item A -> . (t1) the lookaheads t2 (propagated). -/
theorem c7_witness :
    Symbol.terminal 2 ∈ ((pisLookup (addItem bTwo gTwo []
      (ParseItem.normal 0 0 0) {Symbol.terminal 2}) (ParseItem.normal 1 1 0)).getD ∅) := by
  have happ := (c7_add_item_characterization bTwo gTwo [] (ParseItem.normal 0 0 0)
    {Symbol.terminal 2} ⟨Symbol.nonTerminal 1⟩ (by decide) (by decide)).1
    ⟨ParseItem.normal 1 1 0, ⟨∅, true⟩⟩ (by decide) (by decide)
  rcases happ with ⟨L, hL, _, hprop⟩
  rw [hL]
  exact hprop rfl (by
    have : followingTokensOf bTwo gTwo (ParseItem.normal 0 0 0) {Symbol.terminal 2} =
        {Symbol.terminal 2} := by decide
    rw [this] at *
    exact Finset.mem_singleton_self _)


/-! ### Correctness of the FIRST/LAST stack loop -/

/-- Head-chain reachability: the symbols reachable from s by repeatedly
moving to the selected head symbol of a production of the current
non-terminal. -/
inductive Reaches (g : SyntaxGrammar) (sel : Production → List ProductionStep) :
    Symbol → Symbol → Prop where
  | refl (s : Symbol) : Reaches g sel s s
  | step {s x y : Symbol} (h : Reaches g sel s x) (hx : x.isNonTerminal = true)
      (hy : y ∈ succs g sel x.index) : Reaches g sel s y

theorem reaches_front {g : SyntaxGrammar} {sel : Production → List ProductionStep}
    {x y t : Symbol} (hx : x.isNonTerminal = true) (hy : y ∈ succs g sel x.index)
    (h : Reaches g sel y t) : Reaches g sel x t := by
  induction h with
  | refl => exact Reaches.step (Reaches.refl x) hx hy
  | step h2 hx2 hy2 ih => exact Reaches.step ih hx2 hy2

theorem isNonTerminal_false_of_token {s : Symbol} (h : (s.isTerminal || s.isExternal) = true) :
    s.isNonTerminal = false := by
  rcases s with ⟨k, i⟩
  cases k with
  | terminal => rfl
  | nonTerminal => exact Bool.noConfusion h
  | external => rfl

theorem token_of_isNonTerminal_false {s : Symbol} (h : s.isNonTerminal = false) :
    (s.isTerminal || s.isExternal) = true := by
  rcases s with ⟨k, i⟩
  cases k with
  | terminal => rfl
  | nonTerminal => exact Bool.noConfusion h
  | external => rfl

theorem symbol_eta (s : Symbol) (h : s.isNonTerminal = true) :
    s = Symbol.nonTerminal s.index := by
  rcases s with ⟨k, i⟩
  cases k with
  | terminal => exact Bool.noConfusion h
  | nonTerminal => rfl
  | external => exact Bool.noConfusion h

/-- The final visited set and accumulator of a successful run contain the
initial ones. -/
theorem reachLoop_mono (g : SyntaxGrammar) (sel : Production → List ProductionStep) :
    ∀ (fuel : Nat) (visited : Finset Nat) (stack : List Symbol) (acc : Finset Symbol)
      (v2 : Finset Nat) (a2 : Finset Symbol),
      reachLoop g sel fuel visited stack acc = some (v2, a2) → visited ⊆ v2 ∧ acc ⊆ a2 := by
  intro fuel
  induction fuel with
  | zero => intro v st a v2 a2 h; exact Option.noConfusion h
  | succ n ih =>
    intro visited stack acc v2 a2 h
    cases stack with
    | nil =>
      simp only [reachLoop, Option.some.injEq, Prod.mk.injEq] at h
      rw [← h.1, ← h.2]
      exact ⟨Finset.Subset.refl _, Finset.Subset.refl _⟩
    | cons s rest =>
      simp only [reachLoop] at h
      by_cases ht : (s.isTerminal || s.isExternal) = true
      · rw [if_pos ht] at h
        rcases ih visited rest (insert s acc) v2 a2 h with ⟨h1, h2⟩
        exact ⟨h1, Finset.Subset.trans (Finset.subset_insert s acc) h2⟩
      · rw [if_neg ht] at h
        by_cases hv : s.index ∈ visited
        · rw [if_pos hv] at h
          exact ih visited rest acc v2 a2 h
        · rw [if_neg hv] at h
          rcases ih (insert s.index visited) _ acc v2 a2 h with ⟨h1, h2⟩
          exact ⟨Finset.Subset.trans (Finset.subset_insert s.index visited) h1, h2⟩

/-- Every symbol on the stack of a successful run is accounted for in the
final state: tokens end up in the accumulator, non-terminals in the visited
set. -/
theorem reachLoop_stack_accounted (g : SyntaxGrammar) (sel : Production → List ProductionStep) :
    ∀ (fuel : Nat) (visited : Finset Nat) (stack : List Symbol) (acc : Finset Symbol)
      (v2 : Finset Nat) (a2 : Finset Symbol),
      reachLoop g sel fuel visited stack acc = some (v2, a2) →
      ∀ s ∈ stack, (s.isNonTerminal = false → s ∈ a2) ∧
        (s.isNonTerminal = true → s.index ∈ v2) := by
  intro fuel
  induction fuel with
  | zero => intro v st a v2 a2 h; exact Option.noConfusion h
  | succ n ih =>
    intro visited stack acc v2 a2 h
    cases stack with
    | nil => intro s hs; exact absurd hs (List.not_mem_nil s)
    | cons s0 rest =>
      simp only [reachLoop] at h
      intro s hs
      by_cases ht : (s0.isTerminal || s0.isExternal) = true
      · rw [if_pos ht] at h
        rcases List.mem_cons.mp hs with rfl | hrest
        · refine ⟨fun _ => ?_, fun hnt => absurd (isNonTerminal_false_of_token ht)
            (by rw [hnt]; exact fun hc => Bool.noConfusion hc)⟩
          exact (reachLoop_mono g sel n visited rest (insert s acc) v2 a2 h).2
            (Finset.mem_insert_self s acc)
        · exact ih visited rest (insert s0 acc) v2 a2 h s hrest
      · rw [if_neg ht] at h
        have hnt0 : s0.isNonTerminal = true := by
          rcases s0 with ⟨k, i⟩
          cases k with
          | terminal => exact absurd rfl ht
          | nonTerminal => rfl
          | external => exact absurd rfl ht
        by_cases hv : s0.index ∈ visited
        · rw [if_pos hv] at h
          rcases List.mem_cons.mp hs with rfl | hrest
          · exact ⟨fun hf => absurd hnt0 (by rw [hf]; exact fun hc => Bool.noConfusion hc),
              fun _ => (reachLoop_mono g sel n visited rest acc v2 a2 h).1 hv⟩
          · exact ih visited rest acc v2 a2 h s hrest
        · rw [if_neg hv] at h
          rcases List.mem_cons.mp hs with rfl | hrest
          · exact ⟨fun hf => absurd hnt0 (by rw [hf]; exact fun hc => Bool.noConfusion hc),
              fun _ => (reachLoop_mono g sel n _ _ acc v2 a2 h).1
                (Finset.mem_insert_self s.index visited)⟩
          · exact ih _ _ acc v2 a2 h s (List.mem_append_right _ hrest)


/-- Everything in the accumulator of a successful run was there initially or
is a token reachable from a stack symbol. -/
theorem reachLoop_sound (g : SyntaxGrammar) (sel : Production → List ProductionStep) :
    ∀ (fuel : Nat) (visited : Finset Nat) (stack : List Symbol) (acc : Finset Symbol)
      (v2 : Finset Nat) (a2 : Finset Symbol),
      reachLoop g sel fuel visited stack acc = some (v2, a2) →
      ∀ t ∈ a2, t ∈ acc ∨ ((∃ s ∈ stack, Reaches g sel s t) ∧ t.isNonTerminal = false) := by
  intro fuel
  induction fuel with
  | zero => intro v st a v2 a2 h; exact Option.noConfusion h
  | succ n ih =>
    intro visited stack acc v2 a2 h
    cases stack with
    | nil =>
      simp only [reachLoop, Option.some.injEq, Prod.mk.injEq] at h
      intro t ht
      rw [← h.2] at ht
      exact Or.inl ht
    | cons s0 rest =>
      simp only [reachLoop] at h
      by_cases ht0 : (s0.isTerminal || s0.isExternal) = true
      · rw [if_pos ht0] at h
        intro t ht
        rcases ih visited rest (insert s0 acc) v2 a2 h t ht with hin | ⟨⟨s, hs, hr⟩, htok⟩
        · rcases Finset.mem_insert.mp hin with rfl | hacc
          · exact Or.inr ⟨⟨t, List.mem_cons_self t rest, Reaches.refl t⟩,
              isNonTerminal_false_of_token ht0⟩
          · exact Or.inl hacc
        · exact Or.inr ⟨⟨s, List.mem_cons_of_mem s0 hs, hr⟩, htok⟩
      · rw [if_neg ht0] at h
        have hnt0 : s0.isNonTerminal = true := by
          rcases s0 with ⟨k, i⟩
          cases k with
          | terminal => exact absurd rfl ht0
          | nonTerminal => rfl
          | external => exact absurd rfl ht0
        by_cases hv : s0.index ∈ visited
        · rw [if_pos hv] at h
          intro t ht
          rcases ih visited rest acc v2 a2 h t ht with hin | ⟨⟨s, hs, hr⟩, htok⟩
          · exact Or.inl hin
          · exact Or.inr ⟨⟨s, List.mem_cons_of_mem s0 hs, hr⟩, htok⟩
        · rw [if_neg hv] at h
          intro t ht
          rcases ih _ _ acc v2 a2 h t ht with hin | ⟨⟨s, hs, hr⟩, htok⟩
          · exact Or.inl hin
          · rcases List.mem_append.mp hs with hsucc | hrest
            · exact Or.inr ⟨⟨s0, List.mem_cons_self s0 rest,
                reaches_front hnt0 (List.mem_reverse.mp hsucc) hr⟩, htok⟩
            · exact Or.inr ⟨⟨s, List.mem_cons_of_mem s0 hrest, hr⟩, htok⟩

/-- Invariant of the stack loop: every selected head symbol of a production
of a visited non-terminal is already collected, already visited, or still on
the stack. -/
def StackInv (g : SyntaxGrammar) (sel : Production → List ProductionStep)
    (visited : Finset Nat) (stack : List Symbol) (acc : Finset Symbol) : Prop :=
  ∀ j ∈ visited, ∀ y ∈ succs g sel j,
    (y.isNonTerminal = false → y ∈ acc ∨ y ∈ stack) ∧
    (y.isNonTerminal = true → y.index ∈ visited ∨ y ∈ stack)

/-- A successful run started in an invariant state ends closed: every
selected head symbol of a production of a final visited non-terminal is
collected (token) or visited (non-terminal). -/
theorem reachLoop_closed (g : SyntaxGrammar) (sel : Production → List ProductionStep) :
    ∀ (fuel : Nat) (visited : Finset Nat) (stack : List Symbol) (acc : Finset Symbol)
      (v2 : Finset Nat) (a2 : Finset Symbol),
      reachLoop g sel fuel visited stack acc = some (v2, a2) →
      StackInv g sel visited stack acc → StackInv g sel v2 [] a2 := by
  intro fuel
  induction fuel with
  | zero => intro v st a v2 a2 h; exact Option.noConfusion h
  | succ n ih =>
    intro visited stack acc v2 a2 h hinv
    cases stack with
    | nil =>
      simp only [reachLoop, Option.some.injEq, Prod.mk.injEq] at h
      rw [← h.1, ← h.2]
      exact hinv
    | cons s0 rest =>
      simp only [reachLoop] at h
      by_cases ht0 : (s0.isTerminal || s0.isExternal) = true
      · rw [if_pos ht0] at h
        refine ih visited rest (insert s0 acc) v2 a2 h ?_
        intro j hj y hy
        rcases hinv j hj y hy with ⟨htok, hnt⟩
        constructor
        · intro hyt
          rcases htok hyt with hacc | hstk
          · exact Or.inl (Finset.mem_insert_of_mem hacc)
          · rcases List.mem_cons.mp hstk with rfl | hrest
            · exact Or.inl (Finset.mem_insert_self y acc)
            · exact Or.inr hrest
        · intro hyn
          rcases hnt hyn with hvis | hstk
          · exact Or.inl hvis
          · rcases List.mem_cons.mp hstk with rfl | hrest
            · exact absurd (isNonTerminal_false_of_token ht0)
                (by rw [hyn]; exact fun hc => Bool.noConfusion hc)
            · exact Or.inr hrest
      · rw [if_neg ht0] at h
        have hnt0 : s0.isNonTerminal = true := by
          rcases s0 with ⟨k, i⟩
          cases k with
          | terminal => exact absurd rfl ht0
          | nonTerminal => rfl
          | external => exact absurd rfl ht0
        by_cases hv : s0.index ∈ visited
        · rw [if_pos hv] at h
          refine ih visited rest acc v2 a2 h ?_
          intro j hj y hy
          rcases hinv j hj y hy with ⟨htok, hnt⟩
          constructor
          · intro hyt
            rcases htok hyt with hacc | hstk
            · exact Or.inl hacc
            · rcases List.mem_cons.mp hstk with rfl | hrest
              · exact absurd hnt0 (by rw [hyt]; exact fun hc => Bool.noConfusion hc)
              · exact Or.inr hrest
          · intro hyn
            rcases hnt hyn with hvis | hstk
            · exact Or.inl hvis
            · rcases List.mem_cons.mp hstk with rfl | hrest
              · exact Or.inl hv
              · exact Or.inr hrest
        · rw [if_neg hv] at h
          refine ih _ _ acc v2 a2 h ?_
          intro j hj y hy
          rcases Finset.mem_insert.mp hj with rfl | hjold
          · refine ⟨fun _ => Or.inr ?_, fun _ => Or.inr ?_⟩
            · exact List.mem_append_left rest (List.mem_reverse.mpr hy)
            · exact List.mem_append_left rest (List.mem_reverse.mpr hy)
          · rcases hinv j hjold y hy with ⟨htok, hnt⟩
            constructor
            · intro hyt
              rcases htok hyt with hacc | hstk
              · exact Or.inl hacc
              · rcases List.mem_cons.mp hstk with rfl | hrest
                · exact absurd hnt0 (by rw [hyt]; exact fun hc => Bool.noConfusion hc)
                · exact Or.inr (List.mem_append_right _ hrest)
            · intro hyn
              rcases hnt hyn with hvis | hstk
              · exact Or.inl (Finset.mem_insert_of_mem hvis)
              · rcases List.mem_cons.mp hstk with rfl | hrest
                · exact Or.inl (Finset.mem_insert_self y.index visited)
                · exact Or.inr (List.mem_append_right _ hrest)

/-- In a closed final state, everything reachable from an accounted root is
accounted. -/
theorem reaches_accounted (g : SyntaxGrammar) (sel : Production → List ProductionStep)
    {v2 : Finset Nat} {a2 : Finset Symbol} (hclosed : StackInv g sel v2 [] a2)
    {s t : Symbol} (hreach : Reaches g sel s t)
    (hroot : (s.isNonTerminal = false → s ∈ a2) ∧ (s.isNonTerminal = true → s.index ∈ v2)) :
    (t.isNonTerminal = false → t ∈ a2) ∧ (t.isNonTerminal = true → t.index ∈ v2) := by
  induction hreach with
  | refl => exact hroot
  | step h hx hy ih =>
    rename_i x y
    have hxv : x.index ∈ v2 := ih.2 hx
    rcases hclosed x.index hxv y hy with ⟨htok, hnt⟩
    constructor
    · intro hyt
      rcases htok hyt with hacc | hstk
      · exact hacc
      · exact absurd hstk (List.not_mem_nil y)
    · intro hyn
      rcases hnt hyn with hvis | hstk
      · exact hvis
      · exact absurd hstk (List.not_mem_nil y)


/-! ### Validity and sufficiency for the stack loop -/

theorem selFirst_mem {p : Production} {st : ProductionStep} (h : st ∈ selFirst p) :
    st ∈ p.steps := h

theorem selLast_mem {p : Production} {st : ProductionStep} (h : st ∈ selLast p) :
    st ∈ p.steps := List.mem_reverse.mp h

theorem mem_succs {g : SyntaxGrammar} {sel : Production → List ProductionStep}
    {v : Nat} {y : Symbol} :
    y ∈ succs g sel v ↔
      ∃ p ∈ (g.variableAt v).productions, ∃ st, (sel p).head? = some st ∧ st.symbol = y := by
  unfold succs
  rw [List.mem_filterMap]
  constructor
  · rintro ⟨p, hp, hf⟩
    rcases Option.map_eq_some'.mp hf with ⟨st, hh, he⟩
    exact ⟨p, hp, st, hh, he⟩
  · rintro ⟨p, hp, st, hh, he⟩
    exact ⟨p, hp, Option.map_eq_some'.mpr ⟨st, hh, he⟩⟩

theorem variableAt_mem (g : SyntaxGrammar) {v : Nat} (hv : v < g.vars.length) :
    g.variableAt v ∈ g.vars := by
  unfold SyntaxGrammar.variableAt
  rw [List.getD_eq_getElem?_getD, List.getElem?_eq_getElem hv]
  exact List.getElem_mem hv

theorem succs_valid (g : SyntaxGrammar) (lex : LexicalGrammar)
    (sel : Production → List ProductionStep) (hwf : WFGrammar g lex)
    (hsel : ∀ (p : Production) (st : ProductionStep), st ∈ sel p → st ∈ p.steps)
    {v : Nat} (hv : v < g.vars.length) : ∀ y ∈ succs g sel v, ValidSymbol g lex y := by
  intro y hy
  rcases mem_succs.mp hy with ⟨p, hp, st, hh, he⟩
  rw [← he]
  exact hwf _ (variableAt_mem g hv) p hp st (hsel p st (List.mem_of_mem_head? hh))

theorem valid_nonTerminal_lt {g : SyntaxGrammar} {lex : LexicalGrammar} {s : Symbol}
    (hnt : s.isNonTerminal = true) (hval : ValidSymbol g lex s) :
    s.index < g.vars.length := by
  rcases s with ⟨k, i⟩
  cases k with
  | terminal => exact Bool.noConfusion hnt
  | nonTerminal => exact hval
  | external => exact Bool.noConfusion hnt

theorem token_mem_alphabet (g : SyntaxGrammar) (lex : LexicalGrammar) {s : Symbol}
    (hval : ValidSymbol g lex s) (htok : s.isNonTerminal = false) :
    s ∈ alphabet g lex := by
  rcases s with ⟨k, i⟩
  cases k with
  | terminal =>
    refine Finset.mem_union_left _ ?_
    rw [List.mem_toFinset, List.mem_map]
    exact ⟨i, List.mem_range.mpr hval, rfl⟩
  | nonTerminal => exact Bool.noConfusion htok
  | external =>
    refine Finset.mem_union_right _ ?_
    rw [List.mem_toFinset, List.mem_map]
    exact ⟨i, List.mem_range.mpr hval, rfl⟩

/-- On a well-formed grammar the collected set stays inside the token
alphabet. -/
theorem reachLoop_acc_sub (g : SyntaxGrammar) (lex : LexicalGrammar)
    (sel : Production → List ProductionStep) (hwf : WFGrammar g lex)
    (hsel : ∀ (p : Production) (st : ProductionStep), st ∈ sel p → st ∈ p.steps) :
    ∀ (fuel : Nat) (visited : Finset Nat) (stack : List Symbol) (acc : Finset Symbol)
      (v2 : Finset Nat) (a2 : Finset Symbol),
      reachLoop g sel fuel visited stack acc = some (v2, a2) →
      (∀ s ∈ stack, ValidSymbol g lex s) → acc ⊆ alphabet g lex →
      a2 ⊆ alphabet g lex := by
  intro fuel
  induction fuel with
  | zero => intro v st a v2 a2 h; exact Option.noConfusion h
  | succ n ih =>
    intro visited stack acc v2 a2 h hstk hacc
    cases stack with
    | nil =>
      simp only [reachLoop, Option.some.injEq, Prod.mk.injEq] at h
      rw [← h.2]
      exact hacc
    | cons s0 rest =>
      simp only [reachLoop] at h
      by_cases ht0 : (s0.isTerminal || s0.isExternal) = true
      · rw [if_pos ht0] at h
        refine ih visited rest _ v2 a2 h (fun s hs => hstk s (List.mem_cons_of_mem s0 hs)) ?_
        refine Finset.insert_subset ?_ hacc
        exact token_mem_alphabet g lex (hstk s0 (List.mem_cons_self s0 rest))
          (isNonTerminal_false_of_token ht0)
      · rw [if_neg ht0] at h
        have hnt0 : s0.isNonTerminal = true := by
          rcases s0 with ⟨k, i⟩
          cases k with
          | terminal => exact absurd rfl ht0
          | nonTerminal => rfl
          | external => exact absurd rfl ht0
        by_cases hv : s0.index ∈ visited
        · rw [if_pos hv] at h
          exact ih visited rest acc v2 a2 h
            (fun s hs => hstk s (List.mem_cons_of_mem s0 hs)) hacc
        · rw [if_neg hv] at h
          refine ih _ _ acc v2 a2 h ?_ hacc
          intro s hs
          rcases List.mem_append.mp hs with hsucc | hrest
          · exact succs_valid g lex sel hwf hsel
              (valid_nonTerminal_lt hnt0 (hstk s0 (List.mem_cons_self s0 rest)))
              s (List.mem_reverse.mp hsucc)
          · exact hstk s (List.mem_cons_of_mem s0 hrest)

/-- Potential of a loop state: stack length plus the cost of the unvisited
non-terminals. -/
def reachPot (g : SyntaxGrammar) (sel : Production → List ProductionStep)
    (visited : Finset Nat) (stack : List Symbol) : Nat :=
  stack.length + ∑ v in (Finset.range g.vars.length).filter (fun v => v ∉ visited),
    (1 + (succs g sel v).length)

/-- Enough fuel makes the stack loop succeed. -/
theorem reachLoop_suff (g : SyntaxGrammar) (lex : LexicalGrammar)
    (sel : Production → List ProductionStep) (hwf : WFGrammar g lex)
    (hsel : ∀ (p : Production) (st : ProductionStep), st ∈ sel p → st ∈ p.steps) :
    ∀ (fuel : Nat) (visited : Finset Nat) (stack : List Symbol) (acc : Finset Symbol),
      (∀ s ∈ stack, s.isNonTerminal = true → s.index < g.vars.length) →
      reachPot g sel visited stack < fuel →
      ∃ out, reachLoop g sel fuel visited stack acc = some out := by
  intro fuel
  induction fuel with
  | zero => intro visited stack acc _ hpot; exact absurd hpot (Nat.not_lt_zero _)
  | succ n ih =>
    intro visited stack acc hstk hpot
    cases stack with
    | nil => exact ⟨(visited, acc), rfl⟩
    | cons s0 rest =>
      have hpot0 : reachPot g sel visited (s0 :: rest) =
          reachPot g sel visited rest + 1 := by
        unfold reachPot
        rw [List.length_cons]
        omega
      by_cases ht0 : (s0.isTerminal || s0.isExternal) = true
      · rcases ih visited rest (insert s0 acc)
          (fun s hs h2 => hstk s (List.mem_cons_of_mem s0 hs) h2) (by omega) with ⟨out, hout⟩
        refine ⟨out, ?_⟩
        simp only [reachLoop]
        rw [if_pos ht0]
        exact hout
      · have hnt0 : s0.isNonTerminal = true := by
          rcases s0 with ⟨k, i⟩
          cases k with
          | terminal => exact absurd rfl ht0
          | nonTerminal => rfl
          | external => exact absurd rfl ht0
        by_cases hv : s0.index ∈ visited
        · rcases ih visited rest acc
            (fun s hs h2 => hstk s (List.mem_cons_of_mem s0 hs) h2) (by omega) with ⟨out, hout⟩
          refine ⟨out, ?_⟩
          simp only [reachLoop]
          rw [if_neg ht0, if_pos hv]
          exact hout
        · have hi0 : s0.index < g.vars.length :=
            hstk s0 (List.mem_cons_self s0 rest) hnt0
          have hfilter : (Finset.range g.vars.length).filter
              (fun v => v ∉ insert s0.index visited) =
              ((Finset.range g.vars.length).filter (fun v => v ∉ visited)).erase s0.index := by
            ext x
            simp only [Finset.mem_filter, Finset.mem_erase, Finset.mem_range,
              Finset.mem_insert]
            constructor
            · rintro ⟨hx, hni⟩
              exact ⟨fun he => hni (Or.inl he), hx, fun hm => hni (Or.inr hm)⟩
            · rintro ⟨hne, hx, hni⟩
              exact ⟨hx, fun hc => hc.elim hne hni⟩
          have hmem : s0.index ∈ (Finset.range g.vars.length).filter
              (fun v => v ∉ visited) := by
            rw [Finset.mem_filter]
            exact ⟨Finset.mem_range.mpr hi0, hv⟩
          have hsum := Finset.add_sum_erase _ (fun v => 1 + (succs g sel v).length) hmem
          simp only [] at hsum
          have hpot2 : reachPot g sel (insert s0.index visited)
              ((succs g sel s0.index).reverse ++ rest) + 2 =
              reachPot g sel visited (s0 :: rest) := by
            unfold reachPot
            rw [hfilter, List.length_append, List.length_reverse, List.length_cons]
            omega
          have hvalid2 : ∀ s ∈ (succs g sel s0.index).reverse ++ rest,
              s.isNonTerminal = true → s.index < g.vars.length := by
            intro s hs hnt
            rcases List.mem_append.mp hs with hsucc | hrest
            · exact valid_nonTerminal_lt hnt
                (succs_valid g lex sel hwf hsel hi0 s (List.mem_reverse.mp hsucc))
            · exact hstk s (List.mem_cons_of_mem s0 hrest) hnt
          rcases ih (insert s0.index visited) ((succs g sel s0.index).reverse ++ rest) acc
            hvalid2 (by omega) with ⟨out, hout⟩
          refine ⟨out, ?_⟩
          simp only [reachLoop]
          rw [if_neg ht0, if_neg hv]
          exact hout


/-- A successful run underlies every computed FIRST/LAST set of a registered
non-terminal on a well-formed grammar. -/
theorem computedSet_run (g : SyntaxGrammar) (lex : LexicalGrammar)
    (sel : Production → List ProductionStep) (hwf : WFGrammar g lex)
    (hsel : ∀ (p : Production) (st : ProductionStep), st ∈ sel p → st ∈ p.steps)
    {i : Nat} (hi : i < g.vars.length) :
    ∃ v2 a2, reachLoop g sel (reachFuel g sel) ∅ [Symbol.nonTerminal i] ∅ = some (v2, a2) ∧
      computedSet g sel (Symbol.nonTerminal i) = a2 := by
  have hfilter : (Finset.range g.vars.length).filter (fun v => v ∉ (∅ : Finset Nat)) =
      Finset.range g.vars.length := by
    refine Finset.filter_true_of_mem ?_
    intro x _
    exact Finset.not_mem_empty x
  have hpot : reachPot g sel ∅ [Symbol.nonTerminal i] < reachFuel g sel := by
    unfold reachPot reachFuel
    rw [hfilter]
    simp only [List.length_singleton]
    omega
  have hstk : ∀ s ∈ [Symbol.nonTerminal i], s.isNonTerminal = true →
      s.index < g.vars.length := by
    intro s hs _
    rcases List.mem_singleton.mp hs with rfl
    exact hi
  rcases reachLoop_suff g lex sel hwf hsel (reachFuel g sel) ∅ [Symbol.nonTerminal i] ∅
    hstk hpot with ⟨out, hout⟩
  rcases out with ⟨v2, a2⟩
  refine ⟨v2, a2, hout, ?_⟩
  unfold computedSet
  rw [hout]
  rfl

/-- The computed set of a registered non-terminal is exactly the set of
tokens head-chain reachable from it. -/
theorem computedSet_iff (g : SyntaxGrammar) (lex : LexicalGrammar)
    (sel : Production → List ProductionStep) (hwf : WFGrammar g lex)
    (hsel : ∀ (p : Production) (st : ProductionStep), st ∈ sel p → st ∈ p.steps)
    {i : Nat} (hi : i < g.vars.length) (t : Symbol) :
    t ∈ computedSet g sel (Symbol.nonTerminal i) ↔
      Reaches g sel (Symbol.nonTerminal i) t ∧ t.isNonTerminal = false := by
  rcases computedSet_run g lex sel hwf hsel hi with ⟨v2, a2, hrun, heq⟩
  rw [heq]
  constructor
  · intro ht
    rcases reachLoop_sound g sel _ _ _ _ v2 a2 hrun t ht with hin | ⟨⟨s, hs, hr⟩, htok⟩
    · exact absurd hin (Finset.not_mem_empty t)
    · rcases List.mem_singleton.mp hs with rfl
      exact ⟨hr, htok⟩
  · rintro ⟨hr, htok⟩
    have hclosed := reachLoop_closed g sel _ _ _ _ v2 a2 hrun
      (fun j hj => absurd hj (Finset.not_mem_empty j))
    have hroot := reachLoop_stack_accounted g sel _ _ _ _ v2 a2 hrun
      (Symbol.nonTerminal i) (List.mem_singleton_self _)
    exact (reaches_accounted g sel hclosed hr hroot).1 htok

/-- The computed set of a registered non-terminal stays inside the token
alphabet. -/
theorem computedSet_sub_alphabet (g : SyntaxGrammar) (lex : LexicalGrammar)
    (sel : Production → List ProductionStep) (hwf : WFGrammar g lex)
    (hsel : ∀ (p : Production) (st : ProductionStep), st ∈ sel p → st ∈ p.steps)
    {i : Nat} (hi : i < g.vars.length) :
    computedSet g sel (Symbol.nonTerminal i) ⊆ alphabet g lex := by
  rcases computedSet_run g lex sel hwf hsel hi with ⟨v2, a2, hrun, heq⟩
  rw [heq]
  refine reachLoop_acc_sub g lex sel hwf hsel _ ∅ _ ∅ v2 a2 hrun ?_
    (Finset.empty_subset _)
  intro s hs
  rcases List.mem_singleton.mp hs with rfl
  exact hi

/-- Every set stored in the symbol-set maps of a well-formed grammar is a
subset of the token alphabet. -/
theorem buildSets_sub_alphabet (g : SyntaxGrammar) (lex : LexicalGrammar)
    (sel : Production → List ProductionStep) (hwf : WFGrammar g lex)
    (hsel : ∀ (p : Production) (st : ProductionStep), st ∈ sel p → st ∈ p.steps) :
    ∀ (s : Symbol) (S : LookaheadSet), buildSets g lex sel s = some S →
      S ⊆ alphabet g lex := by
  intro s S h
  by_cases hval : ValidSymbol g lex s
  · rcases s with ⟨k, ix⟩
    cases k with
    | terminal =>
      rw [show Symbol.mk SymbolKind.terminal ix = Symbol.terminal ix from rfl,
        buildSets_terminal g lex sel ix hval] at h
      cases h
      refine Finset.singleton_subset_iff.mpr ?_
      exact token_mem_alphabet g lex hval rfl
    | nonTerminal =>
      rw [show Symbol.mk SymbolKind.nonTerminal ix = Symbol.nonTerminal ix from rfl,
        buildSets_nonTerminal g lex sel ix hval] at h
      cases h
      exact computedSet_sub_alphabet g lex sel hwf hsel hval
    | external =>
      rw [show Symbol.mk SymbolKind.external ix = Symbol.external ix from rfl,
        buildSets_external g lex sel ix hval] at h
      cases h
      refine Finset.singleton_subset_iff.mpr ?_
      exact token_mem_alphabet g lex hval rfl
  · rw [buildSets_invalid g lex sel s hval] at h
    exact Option.noConfusion h


/-! ### Claim C2: exactness of FIRST/LAST -/

/-- Modelled from the spec: a symbol can derive the empty string — some
production of the non-terminal has all its step symbols nullable (in
particular a production with no steps). -/
inductive Nullable (g : SyntaxGrammar) : Symbol → Prop where
  | intro (v : Nat) (p : Production) (hp : p ∈ (g.variableAt v).productions)
      (h : ∀ st ∈ p.steps, Nullable g st.symbol) : Nullable g (Symbol.nonTerminal v)

/-- Modelled from the spec: token t truly begins (sel = selFirst) or ends
(sel = selLast) some derivation of the symbol: a token begins itself, and a
non-terminal derives a string beginning with t when some production has a
position whose earlier selected steps are all nullable and whose symbol
derives a string beginning with t. -/
inductive EdgeTok (g : SyntaxGrammar) (sel : Production → List ProductionStep) :
    Symbol → Symbol → Prop where
  | tok (s : Symbol) (h : s.isNonTerminal = false) : EdgeTok g sel s s
  | viaProd (v : Nat) (p : Production) (hp : p ∈ (g.variableAt v).productions)
      (i : Nat) (st : ProductionStep) (hst : (sel p).get? i = some st)
      (hnull : ∀ j, j < i → ∀ stj, (sel p).get? j = some stj → Nullable g stj.symbol)
      (t : Symbol) (h : EdgeTok g sel st.symbol t) :
      EdgeTok g sel (Symbol.nonTerminal v) t

/-- The grammar has no empty productions. -/
def NoEmptyProductions (g : SyntaxGrammar) : Prop :=
  ∀ vr ∈ g.vars, ∀ p ∈ vr.productions, p.steps ≠ []

instance (g : SyntaxGrammar) : Decidable (NoEmptyProductions g) := by
  unfold NoEmptyProductions; infer_instance

theorem variableAt_no_empty {g : SyntaxGrammar} (hne : NoEmptyProductions g) (v : Nat) :
    ∀ p ∈ (g.variableAt v).productions, p.steps ≠ [] := by
  intro p hp
  by_cases hv : v < g.vars.length
  · exact hne _ (variableAt_mem g hv) p hp
  · rw [show g.variableAt v = ⟨[]⟩ from by
      unfold SyntaxGrammar.variableAt
      exact List.getD_eq_default _ _ (Nat.le_of_not_lt hv)] at hp
    exact absurd hp (List.not_mem_nil p)

/-- Without empty productions nothing is nullable. -/
theorem not_nullable {g : SyntaxGrammar} (hne : NoEmptyProductions g) (s : Symbol) :
    ¬ Nullable g s := by
  intro h
  induction h with
  | intro v p hp hall ih =>
    cases hsteps : p.steps with
    | nil => exact variableAt_no_empty hne v p hp hsteps
    | cons st t => exact ih st (by rw [hsteps]; exact List.mem_cons_self st t)

theorem get?_zero_head? {α : Type} {l : List α} {a : α} :
    l.get? 0 = some a ↔ l.head? = some a := by
  cases l with
  | nil => exact Iff.rfl
  | cons x t => exact Iff.rfl

/-- An edge derivation can be prefixed by a reachability chain. -/
theorem edge_of_reaches {g : SyntaxGrammar} {sel : Production → List ProductionStep}
    {s x : Symbol} (hr : Reaches g sel s x) :
    ∀ t, EdgeTok g sel x t → EdgeTok g sel s t := by
  induction hr with
  | refl => exact fun t h => h
  | step h2 hx hy ih =>
    rename_i w y
    intro t he
    refine ih t ?_
    rcases mem_succs.mp hy with ⟨p, hp, st, hh, hsym⟩
    rw [symbol_eta w hx]
    exact EdgeTok.viaProd w.index p hp 0 st (get?_zero_head?.mpr hh)
      (fun j hj stj _ => absurd hj (Nat.not_lt_zero j)) t (by rw [hsym]; exact he)

/-- Without empty productions every edge derivation is a head chain. -/
theorem reaches_of_edge {g : SyntaxGrammar} {sel : Production → List ProductionStep}
    (hne : NoEmptyProductions g) {s t : Symbol} (h : EdgeTok g sel s t) :
    Reaches g sel s t ∧ t.isNonTerminal = false := by
  induction h with
  | tok s h => exact ⟨Reaches.refl s, h⟩
  | viaProd v p hp i st hst hnull t h ih =>
    have hi0 : i = 0 := by
      by_contra hne0
      have hlen : i < (sel p).length := by
        rcases List.get?_eq_some.mp hst with ⟨hlt, _⟩
        exact hlt
      have h0lt : 0 < (sel p).length := Nat.lt_of_le_of_lt (Nat.zero_le i) hlen
      rcases List.get?_eq_some.mpr ⟨h0lt, rfl⟩ with hst0
      exact not_nullable hne _
        (hnull 0 (Nat.pos_of_ne_zero hne0) ((sel p).get ⟨0, h0lt⟩) hst0)
    subst hi0
    have hsym : st.symbol ∈ succs g sel v :=
      mem_succs.mpr ⟨p, hp, st, get?_zero_head?.mp hst, rfl⟩
    rcases ih with ⟨hr, htok⟩
    exact ⟨reaches_front rfl hsym hr, htok⟩

/-- Exactness of the symbol-set computation for eps-free well-formed
grammars, generic in the step selector. -/
theorem buildSets_exact (g : SyntaxGrammar) (lex : LexicalGrammar)
    (sel : Production → List ProductionStep) (hwf : WFGrammar g lex)
    (hsel : ∀ (p : Production) (st : ProductionStep), st ∈ sel p → st ∈ p.steps)
    (hne : NoEmptyProductions g) (s : Symbol) (hval : ValidSymbol g lex s) :
    ∃ S, buildSets g lex sel s = some S ∧ ∀ t, t ∈ S ↔ EdgeTok g sel s t := by
  rcases s with ⟨k, ix⟩
  cases k with
  | terminal =>
    refine ⟨{Symbol.terminal ix}, buildSets_terminal g lex sel ix hval, ?_⟩
    intro t
    constructor
    · intro ht
      rcases Finset.mem_singleton.mp ht with rfl
      exact EdgeTok.tok _ rfl
    · intro he
      cases he with
      | tok _ _ => exact Finset.mem_singleton_self _
  | external =>
    refine ⟨{Symbol.external ix}, buildSets_external g lex sel ix hval, ?_⟩
    intro t
    constructor
    · intro ht
      rcases Finset.mem_singleton.mp ht with rfl
      exact EdgeTok.tok _ rfl
    · intro he
      cases he with
      | tok _ _ => exact Finset.mem_singleton_self _
  | nonTerminal =>
    refine ⟨computedSet g sel (Symbol.nonTerminal ix),
      buildSets_nonTerminal g lex sel ix hval, ?_⟩
    intro t
    rw [computedSet_iff g lex sel hwf hsel hval t]
    constructor
    · rintro ⟨hr, htok⟩
      exact edge_of_reaches hr t (EdgeTok.tok t htok)
    · intro he
      exact reaches_of_edge hne he

/-- Counterexample to claim C2 as stated: in the grammar gNul with the
nullable non-terminal B (A -> B C, B -> empty, C -> (t0)), the token t0
truly begins a derivation of A, but the computed FIRST(A) is empty — the
computation only follows first steps and under-approximates on nullable
prefixes. -/
theorem c2_counterexample :
    buildFirstSets gNul lexNul (Symbol.nonTerminal 0) = some ∅ ∧
    EdgeTok gNul selFirst (Symbol.nonTerminal 0) (Symbol.terminal 0) ∧
    Symbol.terminal 0 ∉ (∅ : LookaheadSet) := by
  refine ⟨by decide, ?_, by decide⟩
  refine EdgeTok.viaProd 0 ⟨[⟨Symbol.nonTerminal 1⟩, ⟨Symbol.nonTerminal 2⟩]⟩ ?_ 1
    ⟨Symbol.nonTerminal 2⟩ ?_ ?_ (Symbol.terminal 0) ?_
  · exact List.mem_singleton_self _
  · rfl
  · intro j hj stj hstj
    have hj0 : j = 0 := by omega
    subst hj0
    cases hstj
    refine Nullable.intro 1 ⟨[]⟩ ?_ ?_
    · exact List.mem_singleton_self _
    · intro st hst
      exact absurd hst (List.not_mem_nil st)
  · refine EdgeTok.viaProd 2 ⟨[⟨Symbol.terminal 0⟩]⟩ ?_ 0 ⟨Symbol.terminal 0⟩ ?_ ?_
      (Symbol.terminal 0) (EdgeTok.tok _ rfl)
    · exact List.mem_singleton_self _
    · rfl
    · intro j hj stj hstj
      exact absurd hj (Nat.not_lt_zero j)

/-- Claim C2, amended: for a well-formed grammar with no empty productions,
FIRST and LAST are exact for every registered symbol: a token is in the
computed FIRST(s) (respectively LAST(s)) iff some derivation of s truly
begins (respectively ends) with it.  (With empty productions the
computation under-approximates, see the counterexample.) -/
theorem c2_first_last_exact (g : SyntaxGrammar) (lex : LexicalGrammar)
    (hwf : WFGrammar g lex) (hne : NoEmptyProductions g) (s : Symbol)
    (hval : ValidSymbol g lex s) :
    (∃ S, buildFirstSets g lex s = some S ∧ ∀ t, t ∈ S ↔ EdgeTok g selFirst s t) ∧
    (∃ S, buildLastSets g lex s = some S ∧ ∀ t, t ∈ S ↔ EdgeTok g selLast s t) :=
  ⟨buildSets_exact g lex selFirst hwf (fun _ _ h => selFirst_mem h) hne s hval,
    buildSets_exact g lex selLast hwf (fun _ _ h => selLast_mem h) hne s hval⟩

/-- Witness for the amended C2 at the concrete left-recursive grammar gRec:
t1 is in the computed FIRST(A) and truly begins a derivation of A. -/
theorem c2_witness :
    Symbol.terminal 1 ∈ (buildFirstSets gRec lexRec (Symbol.nonTerminal 0)).getD ∅ ∧
    EdgeTok gRec selFirst (Symbol.nonTerminal 0) (Symbol.terminal 1) := by
  rcases (c2_first_last_exact gRec lexRec (by decide) (by decide) (Symbol.nonTerminal 0)
    (by decide)).1 with ⟨S, hS, hiff⟩
  have hfs : buildFirstSets gRec lexRec (Symbol.nonTerminal 0) =
      some {Symbol.terminal 1} := by decide
  rw [hfs] at hS
  cases hS
  constructor
  · rw [hfs]
    exact Finset.mem_singleton_self _
  · exact (hiff (Symbol.terminal 1)).mp (Finset.mem_singleton_self _)


/-! ### Claim C5: termination of the closure-addition worklist -/

theorem alLookup_nil (k : Nat) : alLookup [] k = none := rfl

theorem alLookup_cons (a : Nat × FollowSetInfo) (t : List (Nat × FollowSetInfo)) (k : Nat) :
    alLookup (a :: t) k = if a.1 = k then some a.2 else alLookup t k := by
  by_cases h : a.1 = k
  · rw [if_pos h]
    unfold alLookup
    rw [List.find?_cons_of_pos _ (by simpa using h)]
    rfl
  · rw [if_neg h]
    unfold alLookup
    rw [List.find?_cons_of_neg _ (by simpa using h)]

theorem alLookup_alInsert (m : List (Nat × FollowSetInfo)) (k : Nat) (v : FollowSetInfo)
    (j : Nat) : alLookup (alInsert m k v) j = if j = k then some v else alLookup m j := by
  induction m with
  | nil =>
    by_cases h : j = k
    · subst h
      simp [alInsert, alLookup_cons, alLookup_nil]
    · simp [alInsert, alLookup_cons, alLookup_nil, h,
        show ¬ (k = j) from fun he => h he.symm]
  | cons a t ih =>
    by_cases hak : a.1 = k
    · by_cases hj : j = k
      · subst hj
        simp [alInsert, hak, alLookup_cons]
      · simp [alInsert, hak, alLookup_cons, hj,
          show ¬ (k = j) from fun he => hj he.symm]
    · by_cases haj : a.1 = j
      · have hj : ¬ j = k := fun he => hak (haj.trans he)
        simp [alInsert, hak, alLookup_cons, haj, hj, ih]
      · simp [alInsert, hak, alLookup_cons, haj, ih]

/-- Work-stack invariant: every pending entry has a registered variable
index and lookaheads inside the alphabet. -/
def WorkInv (g : SyntaxGrammar) (lex : LexicalGrammar) (st : FollowState) : Prop :=
  ∀ e ∈ st.work, e.1 < g.vars.length ∧ e.2.1 ⊆ alphabet g lex

/-- Map invariant: every accumulated lookahead set is inside the alphabet. -/
def MapInv (g : SyntaxGrammar) (lex : LexicalGrammar) (st : FollowState) : Prop :=
  ∀ kv ∈ st.infoMap, kv.2.lookaheads ⊆ alphabet g lex

theorem pushedEntries_length (g : SyntaxGrammar) (fs : FSets) (v : Nat)
    (las : LookaheadSet) (prop : Bool) :
    (pushedEntries g fs v las prop).length ≤ (g.variableAt v).productions.length := by
  unfold pushedEntries
  exact List.length_filterMap_le _ _

theorem productions_le_totalProds (g : SyntaxGrammar) {v : Nat} (hv : v < g.vars.length) :
    (g.variableAt v).productions.length ≤ totalProds g := by
  unfold totalProds
  refine List.single_le_sum (fun x _ => Nat.zero_le x) _ ?_
  exact List.mem_map_of_mem (fun vr => vr.productions.length) (variableAt_mem g hv)

theorem pushedEntries_inv (g : SyntaxGrammar) (lex : LexicalGrammar) (fs : FSets)
    (hwf : WFGrammar g lex)
    (hfs : ∀ sym S, fs sym = some S → S ⊆ alphabet g lex)
    {v : Nat} (hv : v < g.vars.length) {las : LookaheadSet} (hlas : las ⊆ alphabet g lex)
    (prop : Bool) :
    ∀ e ∈ pushedEntries g fs v las prop, e.1 < g.vars.length ∧ e.2.1 ⊆ alphabet g lex := by
  intro e he
  unfold pushedEntries at he
  rcases List.mem_filterMap.mp he with ⟨p, hp, hf⟩
  cases hh : p.steps.head? with
  | none =>
    simp only [hh] at hf
    exact Option.noConfusion hf
  | some st =>
    simp only [hh] at hf
    by_cases hnt : st.symbol.isNonTerminal = true
    · rw [if_pos hnt] at hf
      have hstv : ValidSymbol g lex st.symbol :=
        hwf _ (variableAt_mem g hv) p hp st (List.mem_of_mem_head? hh)
      have hidx : st.symbol.index < g.vars.length := valid_nonTerminal_lt hnt hstv
      by_cases hlen : p.steps.length = 1
      · rw [if_pos hlen] at hf
        cases hf
        exact ⟨hidx, hlas⟩
      · rw [if_neg hlen] at hf
        cases hf
        refine ⟨hidx, ?_⟩
        show ((p.steps.get? 1).bind (fun st2 => fs st2.symbol)).getD ∅ ⊆ alphabet g lex
        cases hsnd : (p.steps.get? 1).bind (fun st2 => fs st2.symbol) with
        | none => exact Finset.empty_subset _
        | some S =>
          rcases Option.bind_eq_some.mp hsnd with ⟨st2, _, hfs2⟩
          exact hfs st2.symbol S hfs2
    · rw [if_neg hnt] at hf
      exact Option.noConfusion hf


theorem alLookup_mem {m : List (Nat × FollowSetInfo)} {k : Nat} {i : FollowSetInfo}
    (h : alLookup m k = some i) : ∃ pr ∈ m, pr.2 = i := by
  unfold alLookup at h
  rcases Option.map_eq_some'.mp h with ⟨pr, hfind, hi⟩
  exact ⟨pr, List.mem_of_find?_eq_some hfind, hi⟩

theorem alInsert_mem {m : List (Nat × FollowSetInfo)} {k : Nat} {v : FollowSetInfo} :
    ∀ kv ∈ alInsert m k v, kv = (k, v) ∨ kv ∈ m := by
  induction m with
  | nil =>
    intro kv hkv
    rcases List.mem_singleton.mp hkv with rfl
    exact Or.inl rfl
  | cons a t ih =>
    intro kv hkv
    unfold alInsert at hkv
    by_cases hak : a.1 = k
    · rw [if_pos hak] at hkv
      rcases List.mem_cons.mp hkv with rfl | ht
      · exact Or.inl rfl
      · exact Or.inr (List.mem_cons_of_mem a ht)
    · rw [if_neg hak] at hkv
      rcases List.mem_cons.mp hkv with rfl | ht
      · exact Or.inr (List.mem_cons_self _ _)
      · rcases ih kv ht with h | h
        · exact Or.inl h
        · exact Or.inr (List.mem_cons_of_mem a h)

/-- Potential of one non-terminal in the accumulator map: how much its
lookahead set can still grow plus one for an unset propagate flag. -/
def potAt (g : SyntaxGrammar) (lex : LexicalGrammar) (m : List (Nat × FollowSetInfo))
    (j : Nat) : Nat :=
  ((alphabet g lex).card + 1 - ((alLookup m j).getD ⟨∅, false⟩).lookaheads.card) +
    (if ((alLookup m j).getD ⟨∅, false⟩).propagatesLookaheads then 0 else 1)

/-- Total potential of the accumulator map. -/
def potMap (g : SyntaxGrammar) (lex : LexicalGrammar)
    (m : List (Nat × FollowSetInfo)) : Nat :=
  ∑ j in Finset.range g.vars.length, potAt g lex m j

/-- Termination measure of a follow state. -/
def fMeasure (g : SyntaxGrammar) (lex : LexicalGrammar) (st : FollowState) : Nat :=
  potMap g lex st.infoMap * (totalProds g + 1) + st.work.length

theorem potAt_alInsert_other (g : SyntaxGrammar) (lex : LexicalGrammar)
    (m : List (Nat × FollowSetInfo)) (v : Nat) (info : FollowSetInfo) {j : Nat}
    (h : j ≠ v) : potAt g lex (alInsert m v info) j = potAt g lex m j := by
  unfold potAt
  rw [alLookup_alInsert, if_neg h]

theorem potMap_split (g : SyntaxGrammar) (lex : LexicalGrammar)
    (m : List (Nat × FollowSetInfo)) (v : Nat) (info : FollowSetInfo)
    (hv : v < g.vars.length) :
    potMap g lex (alInsert m v info) + potAt g lex m v =
      potMap g lex m + potAt g lex (alInsert m v info) v := by
  have hvmem : v ∈ Finset.range g.vars.length := Finset.mem_range.mpr hv
  have h1 := Finset.add_sum_erase (Finset.range g.vars.length)
    (potAt g lex (alInsert m v info)) hvmem
  have h2 := Finset.add_sum_erase (Finset.range g.vars.length) (potAt g lex m) hvmem
  have h3 : ∑ j in (Finset.range g.vars.length).erase v, potAt g lex (alInsert m v info) j =
      ∑ j in (Finset.range g.vars.length).erase v, potAt g lex m j := by
    refine Finset.sum_congr rfl ?_
    intro j hj
    exact potAt_alInsert_other g lex m v info (Finset.mem_erase.mp hj).1
  unfold potMap
  omega

theorem potAt_card_le (g : SyntaxGrammar) (lex : LexicalGrammar)
    (m : List (Nat × FollowSetInfo)) (j : Nat)
    (hmi : ∀ kv ∈ m, kv.2.lookaheads ⊆ alphabet g lex) :
    ((alLookup m j).getD ⟨∅, false⟩).lookaheads ⊆ alphabet g lex := by
  cases hl : alLookup m j with
  | none => exact Finset.empty_subset _
  | some info =>
    rcases alLookup_mem hl with ⟨pr, hpr, hi⟩
    rw [show ((some info).getD (⟨∅, false⟩ : FollowSetInfo)) = info from rfl, ← hi]
    exact hmi pr hpr


/-- One worklist step preserves both invariants and strictly decreases the
measure. -/
theorem followStep_anal (g : SyntaxGrammar) (lex : LexicalGrammar) (fs : FSets)
    (hwf : WFGrammar g lex)
    (hfs : ∀ sym S, fs sym = some S → S ⊆ alphabet g lex)
    (st : FollowState) (v : Nat) (las : LookaheadSet) (prop : Bool)
    (rest : List (Nat × LookaheadSet × Bool))
    (hwork : st.work = (v, las, prop) :: rest)
    (hwi : WorkInv g lex st) (hmi : MapInv g lex st) :
    WorkInv g lex (followStep g fs st) ∧ MapInv g lex (followStep g fs st) ∧
    fMeasure g lex (followStep g fs st) < fMeasure g lex st := by
  have hhead := hwi (v, las, prop) (by rw [hwork]; exact List.mem_cons_self _ _)
  have hv : v < g.vars.length := hhead.1
  have hlas : las ⊆ alphabet g lex := hhead.2
  have hrest : ∀ e ∈ rest, e.1 < g.vars.length ∧ e.2.1 ⊆ alphabet g lex :=
    fun e he => hwi e (by rw [hwork]; exact List.mem_cons_of_mem _ he)
  have hE : ((alLookup st.infoMap v).getD ⟨∅, false⟩).lookaheads ⊆ alphabet g lex :=
    potAt_card_le g lex st.infoMap v (fun kv hkv => hmi kv hkv)
  set E := (alLookup st.infoMap v).getD ⟨∅, false⟩ with hEdef
  set dA : Bool := (if prop then !E.propagatesLookaheads
    else decide (¬ las ⊆ E.lookaheads)) with hdA
  set nI : FollowSetInfo := (if prop then ⟨E.lookaheads, true⟩
    else ⟨E.lookaheads ∪ las, E.propagatesLookaheads⟩) with hnI
  have hstep : followStep g fs st = ⟨alInsert st.infoMap v nI,
      (if dA = true then pushedEntries g fs v las prop else []).reverse ++ rest⟩ := by
    rw [hdA, hnI, hEdef]
    unfold followStep
    rw [hwork]
  have hlook2 : alLookup (alInsert st.infoMap v nI) v = some nI := by
    rw [alLookup_alInsert, if_pos rfl]
  have hnIsub : nI.lookaheads ⊆ alphabet g lex := by
    rw [hnI]
    cases prop with
    | true =>
      rw [if_pos rfl]
      exact hE
    | false =>
      rw [if_neg (fun hc => Bool.noConfusion hc)]
      exact Finset.union_subset hE hlas
  rw [hstep]
  refine ⟨?_, ?_, ?_⟩
  · intro e he
    rcases List.mem_append.mp he with hpush | hr
    · have hmem := List.mem_reverse.mp hpush
      by_cases hda : dA = true
      · rw [if_pos hda] at hmem
        exact pushedEntries_inv g lex fs hwf hfs hv hlas prop e hmem
      · rw [if_neg hda] at hmem
        exact absurd hmem (List.not_mem_nil e)
    · exact hrest e hr
  · intro kv hkv
    rcases alInsert_mem kv hkv with rfl | hold
    · exact hnIsub
    · exact hmi kv hold
  · have hsplit := potMap_split g lex st.infoMap v nI hv
    have hbound : (pushedEntries g fs v las prop).length ≤ totalProds g :=
      Nat.le_trans (pushedEntries_length g fs v las prop) (productions_le_totalProds g hv)
    have hpot2 : potAt g lex (alInsert st.infoMap v nI) v =
        ((alphabet g lex).card + 1 - nI.lookaheads.card) +
          (if nI.propagatesLookaheads then 0 else 1) := by
      unfold potAt
      rw [hlook2]
      rfl
    have hpot1 : potAt g lex st.infoMap v =
        ((alphabet g lex).card + 1 - E.lookaheads.card) +
          (if E.propagatesLookaheads then 0 else 1) := by
      unfold potAt
      rw [← hEdef]
    by_cases hda : dA = true
    · have hlt : potAt g lex (alInsert st.infoMap v nI) v < potAt g lex st.infoMap v := by
        cases prop with
        | true =>
          have hEp : E.propagatesLookaheads = false := by
            rw [hdA, if_pos rfl] at hda
            cases hEpv : E.propagatesLookaheads with
            | true => rw [hEpv] at hda; exact absurd hda (by decide)
            | false => rfl
          have hnIval : nI = ⟨E.lookaheads, true⟩ := by rw [hnI, if_pos rfl]
          have hnIlk : nI.lookaheads = E.lookaheads := by rw [hnIval]
          have hnIpp : nI.propagatesLookaheads = true := by rw [hnIval]
          rw [hpot2, hpot1, hnIlk, hnIpp, hEp]
          rw [show (if (true : Bool) = true then (0 : Nat) else 1) = 0 from rfl,
            show (if (false : Bool) = true then (0 : Nat) else 1) = 1 from rfl]
          omega
        | false =>
          have hnsub : ¬ las ⊆ E.lookaheads := by
            rw [hdA, if_neg (fun hc => Bool.noConfusion hc)] at hda
            exact of_decide_eq_true hda
          have hnIval : nI = ⟨E.lookaheads ∪ las, E.propagatesLookaheads⟩ := by
            rw [hnI, if_neg (fun hc => Bool.noConfusion hc)]
          have hnIlk : nI.lookaheads = E.lookaheads ∪ las := by rw [hnIval]
          have hnIpp : nI.propagatesLookaheads = E.propagatesLookaheads := by rw [hnIval]
          have hss : E.lookaheads ⊂ E.lookaheads ∪ las := by
            rcases Finset.not_subset.mp hnsub with ⟨x, hxl, hxe⟩
            exact ⟨Finset.subset_union_left,
              fun hc => hxe (hc (Finset.mem_union_right _ hxl))⟩
          have hc12 : E.lookaheads.card < (E.lookaheads ∪ las).card :=
            Finset.card_lt_card hss
          have hcA : (E.lookaheads ∪ las).card ≤ (alphabet g lex).card :=
            Finset.card_le_card (Finset.union_subset hE hlas)
          rw [hpot2, hpot1, hnIlk, hnIpp]
          omega
      have hple : potMap g lex (alInsert st.infoMap v nI) + 1 ≤ potMap g lex st.infoMap := by
        omega
      have hmul : potMap g lex (alInsert st.infoMap v nI) * (totalProds g + 1) +
          (totalProds g + 1) ≤ potMap g lex st.infoMap * (totalProds g + 1) := by
        have hm := Nat.mul_le_mul_right (totalProds g + 1) hple
        calc potMap g lex (alInsert st.infoMap v nI) * (totalProds g + 1) +
              (totalProds g + 1)
            = (potMap g lex (alInsert st.infoMap v nI) + 1) * (totalProds g + 1) := by ring
          _ ≤ potMap g lex st.infoMap * (totalProds g + 1) := hm
      unfold fMeasure
      simp only [hwork]
      rw [List.length_append, List.length_reverse, List.length_cons]
      rw [if_pos hda]
      omega
    · have heq : potAt g lex (alInsert st.infoMap v nI) v = potAt g lex st.infoMap v := by
        cases prop with
        | true =>
          have hEp : E.propagatesLookaheads = true := by
            rw [hdA, if_pos rfl] at hda
            cases hEpv : E.propagatesLookaheads with
            | true => rfl
            | false => rw [hEpv] at hda; exact absurd rfl hda
          have hnIval : nI = ⟨E.lookaheads, true⟩ := by rw [hnI, if_pos rfl]
          have hnIlk : nI.lookaheads = E.lookaheads := by rw [hnIval]
          have hnIpp : nI.propagatesLookaheads = true := by rw [hnIval]
          rw [hpot2, hpot1, hnIlk, hnIpp, hEp]
        | false =>
          have hsub : las ⊆ E.lookaheads := by
            rw [hdA, if_neg (fun hc => Bool.noConfusion hc)] at hda
            have hdf := of_decide_eq_false (Bool.of_not_eq_true hda)
            exact Decidable.not_not.mp hdf
          have hnIval : nI = ⟨E.lookaheads ∪ las, E.propagatesLookaheads⟩ := by
            rw [hnI, if_neg (fun hc => Bool.noConfusion hc)]
          have hu : E.lookaheads ∪ las = E.lookaheads := Finset.union_eq_left.mpr hsub
          have hnIlk : nI.lookaheads = E.lookaheads := by
            rw [hnIval]
            exact hu
          have hnIpp : nI.propagatesLookaheads = E.propagatesLookaheads := by rw [hnIval]
          rw [hpot2, hpot1, hnIlk, hnIpp]
      have hpeq : potMap g lex (alInsert st.infoMap v nI) = potMap g lex st.infoMap := by
        omega
      unfold fMeasure
      simp only [hwork]
      rw [List.length_append, List.length_reverse, List.length_cons, hpeq]
      rw [if_neg hda]
      simp only [List.length_nil]
      omega


/-- With enough fuel the worklist loop empties its stack and keeps the map
invariant. -/
theorem followLoop_suff (g : SyntaxGrammar) (lex : LexicalGrammar) (fs : FSets)
    (hwf : WFGrammar g lex)
    (hfs : ∀ sym S, fs sym = some S → S ⊆ alphabet g lex) :
    ∀ (fuel : Nat) (st : FollowState), WorkInv g lex st → MapInv g lex st →
      fMeasure g lex st < fuel →
      (followLoop g fs fuel st).work = [] ∧ MapInv g lex (followLoop g fs fuel st) := by
  intro fuel
  induction fuel with
  | zero => intro st _ _ h; exact absurd h (Nat.not_lt_zero _)
  | succ n ih =>
    intro st hwi hmi hm
    cases hw : st.work with
    | nil =>
      have hloop : followLoop g fs (n + 1) st = st := by
        simp only [followLoop, hw]
      rw [hloop]
      exact ⟨hw, hmi⟩
    | cons e rest =>
      rcases e with ⟨v, las, prop⟩
      obtain ⟨hwi2, hmi2, hlt⟩ :=
        followStep_anal g lex fs hwf hfs st v las prop rest hw hwi hmi
      have hloop : followLoop g fs (n + 1) st = followLoop g fs n (followStep g fs st) := by
        simp only [followLoop, hw]
      rw [hloop]
      exact ih (followStep g fs st) hwi2 hmi2 (by omega)

/-- For a registered non-terminal of a well-formed grammar, the worklist
loop started with the standard fuel empties its stack, and every lookahead
set stored in its follow map is inside the alphabet. -/
theorem followMapFor_spec (g : SyntaxGrammar) (lex : LexicalGrammar)
    (hwf : WFGrammar g lex) (i : Nat) (hi : i < g.vars.length) :
    (followLoop g (buildFirstSets g lex) (followFuel g lex) ⟨[], [(i, ∅, true)]⟩).work = [] ∧
    ∀ kv ∈ followMapFor g lex (buildFirstSets g lex) i,
      kv.2.lookaheads ⊆ alphabet g lex := by
  have hfs : ∀ sym S, buildFirstSets g lex sym = some S → S ⊆ alphabet g lex :=
    buildSets_sub_alphabet g lex selFirst hwf (fun _ _ h => selFirst_mem h)
  have hwi : WorkInv g lex ⟨[], [(i, ∅, true)]⟩ := by
    intro e he
    rcases List.mem_singleton.mp he with rfl
    exact ⟨hi, Finset.empty_subset _⟩
  have hmi : MapInv g lex ⟨[], [(i, ∅, true)]⟩ :=
    fun kv hkv => absurd hkv (List.not_mem_nil kv)
  have hconst : ∀ j ∈ Finset.range g.vars.length,
      potAt g lex [] j = (alphabet g lex).card + 2 := by
    intro j _
    unfold potAt
    rfl
  have hpot : potMap g lex [] = g.vars.length * ((alphabet g lex).card + 2) := by
    unfold potMap
    rw [Finset.sum_congr rfl hconst, Finset.sum_const, Finset.card_range, smul_eq_mul]
  have hmeas : fMeasure g lex ⟨[], [(i, ∅, true)]⟩ < followFuel g lex := by
    unfold fMeasure followFuel
    simp only [List.length_singleton]
    rw [hpot]
    omega
  have hsuff := followLoop_suff g lex (buildFirstSets g lex) hwf hfs (followFuel g lex)
    ⟨[], [(i, ∅, true)]⟩ hwi hmi hmeas
  exact ⟨hsuff.1, fun kv hkv => hsuff.2 kv hkv⟩

/-- Every addition of additionsFor carries the follow info of some entry of
the follow map. -/
theorem additionsFor_info (g : SyntaxGrammar) (inl : Inlines)
    (fm : List (Nat × FollowSetInfo)) :
    ∀ a ∈ additionsFor g inl fm, ∃ e ∈ fm, a.info = e.2 := by
  unfold additionsFor
  refine foldl_pres_mem _ _ fm ?_ [] (by intro a h; exact absurd h (List.not_mem_nil a))
  intro acc entry hentry hacc
  by_cases hv : Symbol.nonTerminal entry.1 ∈ g.variablesToInline
  · simpa [hv] using hacc
  · simp only [hv, if_false]
    refine foldl_pres _ _ ?_ _ acc hacc
    intro acc2 p hacc2
    cases hit : inl.items (ParseItem.normal entry.1 p 0) with
    | some l =>
      simp only [hit]
      refine foldl_pres _ _ ?_ l acc2 hacc2
      intro acc3 it hacc3 a ha
      rcases mem_findOrPush ha with h | h
      · exact hacc3 a h
      · subst h
        exact ⟨entry, hentry, rfl⟩
    | none =>
      simp only [hit]
      intro a ha
      rcases mem_findOrPush ha with h | h
      · exact hacc2 a h
      · subst h
        exact ⟨entry, hentry, rfl⟩

/-- Claim C5: for every well-formed grammar — including self- and
left-recursive ones — the worklist fixed point that builds the
closure-addition table terminates within the standard fuel, and every
lookahead set stored in the resulting table and in the FIRST/LAST maps
contains only tokens of the grammar alphabet. -/
theorem c5_table_terminates_and_bounded (g : SyntaxGrammar) (lex : LexicalGrammar)
    (inl : Inlines) (hwf : WFGrammar g lex) :
    (∀ i, i < g.vars.length →
      (followLoop g (buildFirstSets g lex) (followFuel g lex)
        ⟨[], [(i, ∅, true)]⟩).work = []) ∧
    (∀ i, ∀ a ∈ (mkBuilder g lex inl).additionsAt i,
      a.info.lookaheads ⊆ alphabet g lex) ∧
    (∀ s S, buildFirstSets g lex s = some S → S ⊆ alphabet g lex) ∧
    (∀ s S, buildLastSets g lex s = some S → S ⊆ alphabet g lex) := by
  refine ⟨fun i hi => (followMapFor_spec g lex hwf i hi).1, ?_,
    buildSets_sub_alphabet g lex selFirst hwf (fun _ _ h => selFirst_mem h),
    buildSets_sub_alphabet g lex selLast hwf (fun _ _ h => selLast_mem h)⟩
  intro i a ha
  by_cases hi : i < g.vars.length
  · rw [additionsAt_eq g lex inl i hi] at ha
    rcases additionsFor_info g inl _ a ha with ⟨e, he, hinfo⟩
    rw [hinfo]
    exact (followMapFor_spec g lex hwf i hi).2 e he
  · rw [additionsAt_out_of_range g lex inl i hi] at ha
    exact absurd ha (List.not_mem_nil a)

/-- Witness for C5 at the left-recursive grammar gRec. -/
theorem c5_witness :
    (followLoop gRec (buildFirstSets gRec lexRec) (followFuel gRec lexRec)
      ⟨[], [(0, ∅, true)]⟩).work = [] ∧
    ({Symbol.terminal 0} : LookaheadSet) ⊆ alphabet gRec lexRec := by
  refine ⟨(c5_table_terminates_and_bounded gRec lexRec noInl (by decide)).1 0 (by decide),
    ?_⟩
  exact (c5_table_terminates_and_bounded gRec lexRec noInl (by decide)).2.1 0
    ⟨ParseItem.normal 0 0 0, ⟨{Symbol.terminal 0}, true⟩⟩ (by decide)

/-- Witness for C10: the closure-addition table of the left-recursive
grammar gRec stores a start item under non-terminal 0. -/
theorem c10_witness :
    (⟨ParseItem.normal 0 0 0, ⟨{Symbol.terminal 0}, true⟩⟩ ∈ (bRec.additionsAt 0)) ∧
    ((∃ v p, (ParseItem.normal 0 0 0 : ParseItem) = ParseItem.normal v p 0) ∨
      (∃ v p l, noInl.items (ParseItem.normal v p 0) = some l ∧
        (ParseItem.normal 0 0 0 : ParseItem) ∈ l)) := by
  refine ⟨by decide, ?_⟩
  exact c10_additions_are_start_items gRec lexRec noInl 0
    ⟨ParseItem.normal 0 0 0, ⟨{Symbol.terminal 0}, true⟩⟩ (by decide)

end ItemSetBuilder
